import Mathlib

/-!
Shallow embedding of the student-roster algorithm library
(`src/utils/sortAlgorithms.ts`, `src/utils/validation.ts`, the fileIO module and
the student-manager hook) together with proofs of the frozen claims.

Modelling conventions:
* JavaScript strings are Lean `String`s; every string operation from the source
  (`toLowerCase`, `toUpperCase`, `trim`, `includes`, lexicographic `<`) is
  implemented on the underlying character list `String.data`, which computes in
  the kernel.  JavaScript compares strings by UTF-16 code units; for the
  basic-multilingual-plane characters this app manipulates this agrees with the
  codepoint order of `Char`.
* JavaScript numbers are modelled as exact rationals `ℚ`.  The app only ever
  compares and stores the numeric fields (`semester`, `ipk`), so no rounding
  behaviour is observable.
* `getFieldValue` in the source returns the union type `string | number`;
  this is modelled by the lexicographic sum `Lex (List Char ⊕ ℚ)`.  For a
  fixed sort field all produced values live in a single summand, so the
  (arbitrary) ordering between the two summands is never exercised.
-/

namespace StudentApp

/-- Models JavaScript `String.prototype.toLowerCase` (ASCII case mapping) on a
character list. -/
def lowerChars (l : List Char) : List Char := l.map Char.toLower

/-- Models `toLowerCase` on strings. -/
def jsLower (s : String) : String := ⟨lowerChars s.data⟩

/-- Models `String.prototype.toUpperCase` (ASCII case mapping). -/
def jsUpper (s : String) : String := ⟨s.data.map Char.toUpper⟩

/-- Models `String.prototype.trim`: removes leading and trailing whitespace. -/
def jsTrim (s : String) : String :=
  ⟨((s.data.dropWhile Char.isWhitespace).reverse.dropWhile Char.isWhitespace).reverse⟩

/-- Tests whether the first character list is a prefix of the second. -/
def isPrefixOfChars : List Char → List Char → Bool
  | [], _ => true
  | _ :: _, [] => false
  | a :: as, b :: bs => a == b && isPrefixOfChars as bs

/-- Models `hay.includes(needle)` on character lists: `needle` occurs as a
contiguous substring of `hay`. -/
def charsIncludes (hay needle : List Char) : Bool :=
  isPrefixOfChars needle hay ||
    match hay with
    | [] => false
    | _ :: t => charsIncludes t needle

/-- The `IStudent` interface from `src/models/Student.ts`. -/
structure IStudent where
  id : String
  nim : String
  nama : String
  email : String
  jurusan : String
  semester : ℚ
  ipk : ℚ
  tanggalMasuk : String
deriving DecidableEq, Inhabited

/-- The `SortField` union type. -/
inductive SortField where
  | nim | nama | jurusan | semester | ipk
deriving DecidableEq

/-- The `SortOrder` union type. -/
inductive SortOrder where
  | asc | desc
deriving DecidableEq

/-- The `timeComplexity` record carried by `SortResult`. -/
structure TimeComplexity where
  best : String
  average : String
  worst : String
deriving DecidableEq

/-- The `SortResult` interface. -/
structure SortResult where
  sortedData : List IStudent
  comparisons : Nat
  swaps : Nat
  timeComplexity : TimeComplexity
  spaceComplexity : String
  algorithm : String
deriving DecidableEq

/-- The value type returned by `getFieldValue`: the source returns the union
`string | number`; strings are compared after lower-casing, numbers are
compared numerically.  The sum is given the lexicographic order; mixed-summand
comparisons never arise because each field is homogeneous. -/
abbrev FieldVal := Lex (List Char ⊕ ℚ)

/-- Wraps a (lower-cased) string value. -/
def FieldVal.str (l : List Char) : FieldVal := toLex (Sum.inl l)

/-- Wraps a numeric value. -/
def FieldVal.num (q : ℚ) : FieldVal := toLex (Sum.inr q)

/-- The helper `getFieldValue(student, field)`: numbers are returned as-is,
strings are `toString().toLowerCase()`-ed. -/
def getFieldValue (student : IStudent) (field : SortField) : FieldVal :=
  match field with
  | .nim => .str (lowerChars student.nim.data)
  | .nama => .str (lowerChars student.nama.data)
  | .jurusan => .str (lowerChars student.jurusan.data)
  | .semester => .num student.semester
  | .ipk => .num student.ipk

/-- The out-of-order test shared by every sort algorithm in the source:
`order === "asc" ? a > b : a < b` applied to the two field values.  Each
algorithm uses exactly this test (`shouldSwap`, `shouldSelect`, `shouldShift`),
and the merge step uses its negation (`<=` / `>=`). -/
def sortLt (field : SortField) (order : SortOrder) (x y : IStudent) : Bool :=
  match order with
  | .asc => decide (getFieldValue x field > getFieldValue y field)
  | .desc => decide (getFieldValue x field < getFieldValue y field)

section SortCores

variable {α : Type}

/-- Accumulated result of one of the sorting loops: the data plus the
`comparisons` and `swaps` instrumentation counters. -/
structure SortAcc (α : Type) where
  data : List α
  comparisons : Nat
  swaps : Nat
deriving DecidableEq

/-- Result of a single bubble-sort pass. -/
structure BubblePassResult (α : Type) where
  data : List α
  comparisons : Nat
  swaps : Nat
  swapped : Bool
deriving DecidableEq

/-- One pass of the inner loop of `bubbleSort`: `bound` is the number of
adjacent comparisons performed (`n - i - 1` in the source); after a swap the
larger element is carried rightwards, exactly as the in-place
`[data[j], data[j+1]] = [data[j+1], data[j]]` does. -/
def bubblePass (lt : α → α → Bool) : Nat → List α → BubblePassResult α
  | 0, xs => ⟨xs, 0, 0, false⟩
  | _ + 1, [] => ⟨[], 0, 0, false⟩
  | _ + 1, [x] => ⟨[x], 0, 0, false⟩
  | b + 1, x :: y :: rest =>
    if lt x y then
      let r := bubblePass lt b (x :: rest)
      ⟨y :: r.data, r.comparisons + 1, r.swaps + 1, true⟩
    else
      let r := bubblePass lt b (y :: rest)
      ⟨x :: r.data, r.comparisons + 1, r.swaps, r.swapped⟩

/-- The outer loop of `bubbleSort`.  With `k + 1` iterations remaining the
pass bound is `k + 1` (source: `n - i - 1`); the loop `break`s as soon as a
pass performs no swap. -/
def bubbleLoop (lt : α → α → Bool) : Nat → List α → SortAcc α
  | 0, xs => ⟨xs, 0, 0⟩
  | k + 1, xs =>
    let p := bubblePass lt (k + 1) xs
    if p.swapped then
      let r := bubbleLoop lt k p.data
      ⟨r.data, p.comparisons + r.comparisons, p.swaps + r.swaps⟩
    else
      ⟨p.data, p.comparisons, p.swaps⟩

/-- The inner scan of `selectionSort`: starting from the currently selected
(index, value) pair it scans the remaining elements, replacing the selection
whenever `shouldSelect` (that is, `lt selected current`) holds. -/
def selectScan (lt : α → α → Bool) (selIdx : Nat) (sel : α) (j : Nat) :
    List α → Nat × α
  | [] => (selIdx, sel)
  | c :: rest =>
    if lt sel c then selectScan lt j c (j + 1) rest
    else selectScan lt selIdx sel (j + 1) rest

/-- The outer loop of `selectionSort` on the remaining suffix: scan for the
extreme element of the suffix, then swap it with the suffix head when it is
not already in place (`selectedIdx !== i`). -/
def selectionLoop (lt : α → α → Bool) : List α → SortAcc α
  | [] => ⟨[], 0, 0⟩
  | [x] => ⟨[x], 0, 0⟩
  | x :: y :: rest =>
    let s := selectScan lt 0 x 1 (y :: rest)
    let tail := if s.1 = 0 then y :: rest else (y :: rest).set (s.1 - 1) x
    let r := selectionLoop lt tail
    ⟨s.2 :: r.data, (y :: rest).length + r.comparisons,
      (if s.1 = 0 then 0 else 1) + r.swaps⟩
termination_by xs => xs.length
decreasing_by
  split <;> simp [List.length_set]

/-- Result of the inner `while` of `insertionSort` inserting `key` into the
sorted prefix: the updated prefix (with `key` placed), the comparison count,
the number of shifted elements, and whether the scan ran off the left end
(in which case the final comparison against `j = -1` never happens). -/
structure InsertScanResult (α : Type) where
  data : List α
  comparisons : Nat
  shifts : Nat
  ranOff : Bool
deriving DecidableEq

/-- The inner `while` of `insertionSort`: scans the prefix from its right end,
shifting every element with `shouldShift` (that is, `lt element key`) one slot
rightwards, and drops `key` into the freed slot.  Defined by structural
recursion on the prefix; the scan of `a :: rest` first processes `rest` and
only compares `a` when everything in `rest` was shifted. -/
def insertScan (lt : α → α → Bool) (key : α) : List α → InsertScanResult α
  | [] => ⟨[key], 0, 0, true⟩
  | a :: rest =>
    let r := insertScan lt key rest
    if r.ranOff then
      if lt a key then ⟨key :: a :: rest, r.comparisons + 1, r.shifts + 1, true⟩
      else ⟨a :: r.data, r.comparisons + 1, r.shifts, false⟩
    else ⟨a :: r.data, r.comparisons, r.shifts, false⟩

/-- The outer loop of `insertionSort`: the already sorted prefix is the first
argument, the elements still to insert the second.  Starting with an empty
prefix reproduces the source exactly: inserting the first element costs no
comparison and no shift. -/
def insertionLoop (lt : α → α → Bool) : List α → List α → SortAcc α
  | pre, [] => ⟨pre, 0, 0⟩
  | pre, key :: rest =>
    let r := insertScan lt key pre
    let r2 := insertionLoop lt r.data rest
    ⟨r2.data, r.comparisons + r2.comparisons, r.shifts + r2.swaps⟩

/-- Result of the inner `while` of `shellSort`: the array after the shifts,
the final value of `j` (where `temp` is subsequently written), and the
counters. -/
structure ShellShiftResult (α : Type) where
  data : List α
  j : Nat
  comparisons : Nat
  shifts : Nat
deriving DecidableEq

variable {α : Type}

/-- The inner `while (j >= gap)` of `shellSort`: while the element `gap` slots
to the left is `shouldShift` (that is, `lt` it `temp`), copy it to slot `j`
and step `j` down by `gap`.  The `0 < gap` conjunct records the gap-loop
invariant `gap > 0` (and makes the recursion terminate); callers only pass
positive gaps. -/
def shellShift (lt : α → α → Bool) [Inhabited α] (gap : Nat) (temp : α)
    (l : List α) (j : Nat) : ShellShiftResult α :=
  if h : 0 < gap ∧ gap ≤ j then
    if lt (l.getD (j - gap) default) temp then
      let r := shellShift lt gap temp (l.set j (l.getD (j - gap) default)) (j - gap)
      ⟨r.data, r.j, r.comparisons + 1, r.shifts + 1⟩
    else ⟨l, j, 1, 0⟩
  else ⟨l, j, 0, 0⟩
termination_by j
decreasing_by omega

/-- The array produced by `shellShift` has the length of its input. -/
theorem shellShift_data_length (lt : α → α → Bool) [Inhabited α] (gap : Nat)
    (temp : α) (l : List α) (j : Nat) :
    (shellShift lt gap temp l j).data.length = l.length := by
  induction l, j using shellShift.induct lt gap temp with
  | case1 l j h hlt ih =>
    rw [shellShift, dif_pos h, if_pos hlt]
    simpa [List.length_set] using ih
  | case2 l j h hlt => rw [shellShift, dif_pos h, if_neg hlt]
  | case3 l j h => rw [shellShift, dif_neg h]

/-- The `for (let i = gap; i < n; i++)` sweep of `shellSort`: read
`temp = data[i]`, run the inner shift loop, write `temp` at the final `j`. -/
def shellSweep (lt : α → α → Bool) [Inhabited α] (gap : Nat) (l : List α)
    (i : Nat) : SortAcc α :=
  if h : i < l.length then
    let temp := l.getD i default
    let r := shellShift lt gap temp l i
    let r2 := shellSweep lt gap (r.data.set r.j temp) (i + 1)
    ⟨r2.data, r.comparisons + r2.comparisons, r.shifts + r2.swaps⟩
  else ⟨l, 0, 0⟩
termination_by l.length - i
decreasing_by simp [List.length_set, shellShift_data_length]; omega

/-- The gap loop of `shellSort`: gaps `n/2, n/4, …` (integer halving) down to,
and excluding, `0`; each gap runs one sweep starting at `i = gap`. -/
def shellGapLoop (lt : α → α → Bool) [Inhabited α] (l : List α) (gap : Nat) :
    SortAcc α :=
  if h : 0 < gap then
    let r := shellSweep lt gap l gap
    let r2 := shellGapLoop lt r.data (gap / 2)
    ⟨r2.data, r.comparisons + r2.comparisons, r.swaps + r2.swaps⟩
  else ⟨l, 0, 0⟩
termination_by gap
decreasing_by omega

/-- The `merge` helper inside `mergeSort`: while both halves are nonempty emit
the smaller head, counting one comparison and one `swaps` tick per emission;
the element of the left half is emitted when `leftFirst`
(`leftValue <= rightValue` for ascending order), that is, when `lt a b` is
false.  The remainders are appended unchanged and uncounted. -/
def mergeLists (lt : α → α → Bool) : List α → List α → SortAcc α
  | [], right => ⟨right, 0, 0⟩
  | left, [] => ⟨left, 0, 0⟩
  | a :: left, b :: right =>
    if lt a b then
      let r := mergeLists lt (a :: left) right
      ⟨b :: r.data, r.comparisons + 1, r.swaps + 1⟩
    else
      let r := mergeLists lt left (b :: right)
      ⟨a :: r.data, r.comparisons + 1, r.swaps + 1⟩
termination_by l r => l.length + r.length

/-- The recursive `sort` inside `mergeSort`: arrays of length ≤ 1 are returned
as-is, otherwise split at `mid = ⌊n/2⌋` (`slice(0, mid)` / `slice(mid)`),
recurse, and merge. -/
def mergeSortRun (lt : α → α → Bool) (l : List α) : SortAcc α :=
  if h : l.length ≤ 1 then ⟨l, 0, 0⟩
  else
    let mid := l.length / 2
    let left := mergeSortRun lt (l.take mid)
    let right := mergeSortRun lt (l.drop mid)
    let m := mergeLists lt left.data right.data
    ⟨m.data, left.comparisons + right.comparisons + m.comparisons,
      left.swaps + right.swaps + m.swaps⟩
termination_by l.length
decreasing_by
  · simp [List.length_take]; omega
  · simp [List.length_drop]; omega

end SortCores

/-- The exported `bubbleSort` with its instrumentation and complexity
metadata. -/
def bubbleSort (students : List IStudent) (field : SortField)
    (order : SortOrder) : SortResult :=
  let r := bubbleLoop (sortLt field order) (students.length - 1) students
  { sortedData := r.data, comparisons := r.comparisons, swaps := r.swaps,
    timeComplexity := ⟨"O(n)", "O(n²)", "O(n²)"⟩,
    spaceComplexity := "O(1)", algorithm := "Bubble Sort" }

/-- The exported `selectionSort`. -/
def selectionSort (students : List IStudent) (field : SortField)
    (order : SortOrder) : SortResult :=
  let r := selectionLoop (sortLt field order) students
  { sortedData := r.data, comparisons := r.comparisons, swaps := r.swaps,
    timeComplexity := ⟨"O(n²)", "O(n²)", "O(n²)"⟩,
    spaceComplexity := "O(1)", algorithm := "Selection Sort" }

/-- The exported `insertionSort`. -/
def insertionSort (students : List IStudent) (field : SortField)
    (order : SortOrder) : SortResult :=
  let r := insertionLoop (sortLt field order) [] students
  { sortedData := r.data, comparisons := r.comparisons, swaps := r.swaps,
    timeComplexity := ⟨"O(n)", "O(n²)", "O(n²)"⟩,
    spaceComplexity := "O(1)", algorithm := "Insertion Sort" }

/-- The exported `shellSort`. -/
def shellSort (students : List IStudent) (field : SortField)
    (order : SortOrder) : SortResult :=
  let r := shellGapLoop (sortLt field order) students (students.length / 2)
  { sortedData := r.data, comparisons := r.comparisons, swaps := r.swaps,
    timeComplexity := ⟨"O(n log n)", "O(n log²n)", "O(n²)"⟩,
    spaceComplexity := "O(1)", algorithm := "Shell Sort" }

/-- The exported `mergeSort`. -/
def mergeSort (students : List IStudent) (field : SortField)
    (order : SortOrder) : SortResult :=
  let r := mergeSortRun (sortLt field order) students
  { sortedData := r.data, comparisons := r.comparisons, swaps := r.swaps,
    timeComplexity := ⟨"O(n log n)", "O(n log n)", "O(n log n)"⟩,
    spaceComplexity := "O(n)", algorithm := "Merge Sort" }

/-! ### Search engine -/

/-- The `SearchField` union type; all four fields hold strings. -/
inductive SearchField where
  | nim | nama | jurusan | email
deriving DecidableEq

/-- The `SearchResult` interface. -/
structure SearchResult where
  found : Bool
  index : Int
  student : Option IStudent
  comparisons : Nat
  timeComplexity : String
  algorithm : String
deriving DecidableEq

/-- Projects the string stored in `student[field]` for a `SearchField`. -/
def searchFieldValue (student : IStudent) (field : SearchField) : String :=
  match field with
  | .nim => student.nim
  | .nama => student.nama
  | .jurusan => student.jurusan
  | .email => student.email

/-- The lower-cased field value `students[i][field].toString().toLowerCase()`
that both search algorithms compare, as a character list. -/
def searchKey (student : IStudent) (field : SearchField) : List Char :=
  lowerChars (searchFieldValue student field).data

/-- The loop of `linearSearch`: `i` is both the index of the head of the
remaining list and the number of comparisons already performed. -/
def linearSearchLoop (searchValue : String) (field : SearchField) :
    List IStudent → Nat → SearchResult
  | [], i =>
    { found := false, index := -1, student := none, comparisons := i,
      timeComplexity := "O(n)", algorithm := "Linear Search" }
  | s :: rest, i =>
    if charsIncludes (searchKey s field) (lowerChars searchValue.data) then
      { found := true, index := i, student := some s, comparisons := i + 1,
        timeComplexity := "O(n)", algorithm := "Linear Search" }
    else linearSearchLoop searchValue field rest (i + 1)

/-- The exported `linearSearch`: first record whose lower-cased field value
contains the lower-cased query as a substring. -/
def linearSearch (students : List IStudent) (searchValue : String)
    (field : SearchField) : SearchResult :=
  linearSearchLoop searchValue field students 0

/-- The loop of `binarySearch`.  `left` only ever grows from `0`, so it is a
`Nat`; `right` starts at `n - 1` and can reach `-1`, so it is an `Int`.
`mid = ⌊(left + right) / 2⌋`; the lower-cased field value at `mid` is compared
with the lower-cased query for exact equality, then for `<` (lexicographic
string comparison, modelled on the character lists). -/
def binarySearchLoop (students : List IStudent) (searchValue : String)
    (field : SearchField) (left : Nat) (right : Int) (comparisons : Nat) :
    SearchResult :=
  if h : (left : Int) ≤ right then
    let mid := ((left : Int) + right) / 2
    let fieldValue := searchKey (students.getD mid.toNat default) field
    let search := lowerChars searchValue.data
    if fieldValue = search then
      { found := true, index := mid,
        student := some (students.getD mid.toNat default),
        comparisons := comparisons + 1,
        timeComplexity := "O(log n)", algorithm := "Binary Search" }
    else if fieldValue < search then
      binarySearchLoop students searchValue field (mid + 1).toNat right
        (comparisons + 1)
    else
      binarySearchLoop students searchValue field left (mid - 1)
        (comparisons + 1)
  else
    { found := false, index := -1, student := none, comparisons := comparisons,
      timeComplexity := "O(log n)", algorithm := "Binary Search" }
termination_by (right + 1 - left).toNat
decreasing_by all_goals omega

/-- The exported `binarySearch` over a collection pre-sorted ascending by
`field`. -/
def binarySearch (students : List IStudent) (searchValue : String)
    (field : SearchField) : SearchResult :=
  binarySearchLoop students searchValue field 0 ((students.length : Int) - 1) 0

/-! ### Validation engine (`src/utils/validation.ts`) -/

/-- The `ValidationResult` interface. -/
structure ValidationResult where
  isValid : Bool
  message : String
deriving DecidableEq

/-- Character class `[a-zA-Z\s]` of the `NAMA` and `JURUSAN` patterns. -/
def isNamaChar (c : Char) : Bool := c.isAlpha || c.isWhitespace

/-- Character class `[a-zA-Z0-9._%+-]` of the local part of the `EMAIL`
pattern. -/
def isLocalChar (c : Char) : Bool :=
  c.isAlpha || c.isDigit || c == '.' || c == '_' || c == '%' || c == '+' || c == '-'

/-- Character class `[a-zA-Z0-9.-]` of the domain part of the `EMAIL`
pattern. -/
def isDomainChar (c : Char) : Bool :=
  c.isAlpha || c.isDigit || c == '.' || c == '-'

/-- Matcher for the anchored pattern `NAMA`: `^[a-zA-Z\s]{2,100}$`. -/
def namaPatternTest (s : String) : Bool :=
  s.data.all isNamaChar && 2 ≤ s.data.length && s.data.length ≤ 100

/-- Matcher for the anchored pattern `JURUSAN`: `^[a-zA-Z\s]{2,50}$`. -/
def jurusanPatternTest (s : String) : Bool :=
  s.data.all isNamaChar && 2 ≤ s.data.length && s.data.length ≤ 50

/-- Matcher for the anchored pattern `EMAIL`:
`^[a-zA-Z0-9._%+-]+@[a-zA-Z0-9.-]+\.[a-zA-Z]{2,}$`.  A string matches iff it
decomposes as `local ++ "@" ++ domain ++ "." ++ tld` with `local` nonempty over
the local class, `domain` nonempty over the domain class, and `tld` at least
two letters.  Since neither class contains `@`, the string must contain
exactly one `@`; and since `tld` extends to the end and contains no dot, the
separating `\.` can only be the last dot — which is how the matcher below
picks the decomposition. -/
def emailPatternTest (s : String) : Bool :=
  match s.data.splitOn '@' with
  | [localPart, domainAll] =>
    localPart ≠ [] && localPart.all isLocalChar &&
    (let tld := (domainAll.reverse.takeWhile (fun c => c ≠ '.')).reverse
     let domain := domainAll.take (domainAll.length - tld.length - 1)
     domainAll.contains '.' && domain ≠ [] && domain.all isDomainChar &&
       2 ≤ tld.length && tld.all Char.isAlpha)
  | _ => false

/-- Models `validateNIM`: empty (or all-whitespace) and over-long values are
rejected; the `NIM` pattern `^.{1,50}$` imposes nothing further. -/
def validateNIM (nim : String) : ValidationResult :=
  if nim = "" ∨ jsTrim nim = "" then ⟨false, "NIM tidak boleh kosong"⟩
  else if nim.data.length > 50 then ⟨false, "NIM maksimal 50 karakter"⟩
  else ⟨true, "NIM valid"⟩

/-- Models `validateNama`. -/
def validateNama (nama : String) : ValidationResult :=
  if nama = "" ∨ jsTrim nama = "" then ⟨false, "Nama tidak boleh kosong"⟩
  else if nama.data.length < 2 then ⟨false, "Nama minimal 2 karakter"⟩
  else if nama.data.length > 100 then ⟨false, "Nama maksimal 100 karakter"⟩
  else if namaPatternTest nama then ⟨true, "Nama valid"⟩
  else ⟨false, "Nama hanya boleh mengandung huruf dan spasi"⟩

/-- Models `validateEmail`. -/
def validateEmail (email : String) : ValidationResult :=
  if email = "" ∨ jsTrim email = "" then ⟨false, "Email tidak boleh kosong"⟩
  else if emailPatternTest email then ⟨true, "Email valid"⟩
  else ⟨false, "Format email tidak valid. Contoh: nama@domain.com"⟩

/-- Models `validateIPK`.  The `isNaN` guard of the source cannot fire in the
exact rational model of JavaScript numbers, so only the range check remains. -/
def validateIPK (ipk : ℚ) : ValidationResult :=
  if ipk < 0 ∨ ipk > 4 then ⟨false, "IPK harus antara 0.00 - 4.00"⟩
  else ⟨true, "IPK valid"⟩

/-- Models `validateSemester`: `Number.isInteger` is `den = 1` for an exact
rational, then the `1..14` range check. -/
def validateSemester (semester : ℚ) : ValidationResult :=
  if semester.den ≠ 1 then ⟨false, "Semester harus berupa bilangan bulat"⟩
  else if semester < 1 ∨ semester > 14 then ⟨false, "Semester harus antara 1-14"⟩
  else ⟨true, "Semester valid"⟩

/-- Models `validateJurusan`. -/
def validateJurusan (jurusan : String) : ValidationResult :=
  if jurusan = "" ∨ jsTrim jurusan = "" then ⟨false, "Jurusan tidak boleh kosong"⟩
  else if jurusan.data.length < 2 then ⟨false, "Jurusan minimal 2 karakter"⟩
  else if jurusanPatternTest jurusan then ⟨true, "Jurusan valid"⟩
  else ⟨false, "Jurusan hanya boleh mengandung huruf dan spasi"⟩

/-- The six validated fields passed to `validateAllFields`. -/
structure StudentFields where
  nim : String
  nama : String
  email : String
  jurusan : String
  semester : ℚ
  ipk : ℚ
deriving DecidableEq

/-- The `errors` record built by `validateAllFields`: a plain object whose
possible keys are exactly the six field names, modelled as one `Option` per
key (`none` = key absent). -/
structure FieldErrors where
  nim : Option String := none
  nama : Option String := none
  email : Option String := none
  jurusan : Option String := none
  semester : Option String := none
  ipk : Option String := none
deriving DecidableEq

/-- Result of `validateAllFields`. -/
structure AllFieldsResult where
  isValid : Bool
  errors : FieldErrors
deriving DecidableEq

/-- Models `validateAllFields`: runs the six validators, records the message
of every failing one under its field key, and is valid iff no key was
recorded (`Object.keys(errors).length === 0`). -/
def validateAllFields (data : StudentFields) : AllFieldsResult :=
  let errors : FieldErrors :=
    { nim := if (validateNIM data.nim).isValid then none
        else some (validateNIM data.nim).message
      nama := if (validateNama data.nama).isValid then none
        else some (validateNama data.nama).message
      email := if (validateEmail data.email).isValid then none
        else some (validateEmail data.email).message
      jurusan := if (validateJurusan data.jurusan).isValid then none
        else some (validateJurusan data.jurusan).message
      semester := if (validateSemester data.semester).isValid then none
        else some (validateSemester data.semester).message
      ipk := if (validateIPK data.ipk).isValid then none
        else some (validateIPK data.ipk).message }
  { isValid := errors.nim.isNone && errors.nama.isNone && errors.email.isNone
      && errors.jurusan.isNone && errors.semester.isNone && errors.ipk.isNone,
    errors := errors }

/-! ### Persistence gateway (the fileIO module)

The durable store (`localStorage`) keeps at most one current snapshot under
`student_data` and one backup snapshot under `student_data_backup`.  The
stored JSON text is modelled by the parsed payload itself: `JSON.stringify`
followed by `JSON.parse` is the identity on the records this app writes, and
no claim depends on the concrete text. -/

/-- The versioned snapshot written by `saveToFile`. -/
structure SavedPayload where
  version : String
  timestamp : String
  count : Nat
  data : List IStudent
deriving DecidableEq

/-- The two keyed slots of the durable store. -/
structure Storage where
  current : Option SavedPayload := none
  backup : Option SavedPayload := none
deriving DecidableEq

/-- The `FileIOResult` interface (`data` and `timestamp` are optional keys). -/
structure FileIOResult where
  success : Bool
  message : String
  data : Option (List IStudent) := none
  timestamp : Option String := none
deriving DecidableEq

/-- Models `saveToFile`: copy the current snapshot (if any) into the backup
slot, then write the new versioned snapshot.  `new Date().toISOString()` is
supplied as the `now` parameter; the storage-quota failure path cannot fire in
this model of the store. -/
def saveToFile (now : String) (students : List IStudent) (st : Storage) :
    FileIOResult × Storage :=
  let payload : SavedPayload := ⟨"1.0", now, students.length, students⟩
  let st' : Storage :=
    { current := some payload,
      backup := match st.current with
        | some existing => some existing
        | none => st.backup }
  (⟨true, "Data berhasil disimpan. " ++ toString students.length ++
      " mahasiswa tersimpan.", none, some now⟩, st')

/-- Models `restoreFromBackup`: fails when no backup exists, otherwise copies
the backup into the current slot and returns its data and timestamp. -/
def restoreFromBackup (st : Storage) : FileIOResult × Storage :=
  match st.backup with
  | none => (⟨false, "Tidak ada backup yang tersedia.", none, none⟩, st)
  | some backupData =>
    (⟨true, "Data berhasil dipulihkan dari backup.", some backupData.data,
        some backupData.timestamp⟩,
      { st with current := some backupData })

/-- Models `clearAllData`: copy the current snapshot (if any) into the backup
slot, then remove the current snapshot. -/
def clearAllData (st : Storage) : FileIOResult × Storage :=
  let st' : Storage :=
    { current := none,
      backup := match st.current with
        | some existing => some existing
        | none => st.backup }
  (⟨true, "Semua data berhasil dihapus. Backup tersedia untuk pemulihan.",
      none, none⟩, st')

/-! ### Collection manager (the student-manager hook)

The React state cell is made explicit: each operation takes the current
collection and returns the success flag together with the next collection.
`crypto.randomUUID()` is supplied as an explicit `newId` parameter. -/

/-- The argument of `addStudent`: `Omit<IStudent, "id">`. -/
structure NewStudentData where
  nim : String
  nama : String
  email : String
  jurusan : String
  semester : ℚ
  ipk : ℚ
  tanggalMasuk : String
deriving DecidableEq

/-- The argument of `updateStudent`: a JavaScript object that may carry any
subset of the `IStudent` keys (`none` = key absent from the object). -/
structure StudentPatch where
  id : Option String := none
  nim : Option String := none
  nama : Option String := none
  email : Option String := none
  jurusan : Option String := none
  semester : Option ℚ := none
  ipk : Option ℚ := none
  tanggalMasuk : Option String := none
deriving DecidableEq

/-- JavaScript truthiness of an optional string field: present and
nonempty. -/
def strTruthy : Option String → Bool
  | none => false
  | some s => s ≠ ""

/-- The object spread `{ ...s, ...data }`: every key present in `data`
overwrites the corresponding field of `s` (including `id` and
`tanggalMasuk`). -/
def spreadPatch (s : IStudent) (data : StudentPatch) : IStudent :=
  { id := data.id.getD s.id
    nim := data.nim.getD s.nim
    nama := data.nama.getD s.nama
    email := data.email.getD s.email
    jurusan := data.jurusan.getD s.jurusan
    semester := data.semester.getD s.semester
    ipk := data.ipk.getD s.ipk
    tanggalMasuk := data.tanggalMasuk.getD s.tanggalMasuk }

/-- The update applied inside `setStudents`:
`{ ...s, ...data, nim: data.nim ? data.nim.toUpperCase() : s.nim }` — the
spread, except that `nim` is upper-cased when truthy and kept otherwise. -/
def applyPatch (s : IStudent) (data : StudentPatch) : IStudent :=
  { spreadPatch s data with
    nim := match data.nim with
      | some v => if v ≠ "" then jsUpper v else s.nim
      | none => s.nim }

/-- Models `addStudent`: validate the six fields, reject a duplicate `nim`
(case-insensitive), then append the new record with a fresh id and the
upper-cased `nim`.  Returns the success flag and the next collection. -/
def addStudent (newId : String) (students : List IStudent)
    (data : NewStudentData) : Bool × List IStudent :=
  let validation := validateAllFields
    ⟨data.nim, data.nama, data.email, data.jurusan, data.semester, data.ipk⟩
  if ¬ validation.isValid then (false, students)
  else if students.any (fun s => jsLower s.nim == jsLower data.nim) then
    (false, students)
  else
    (true, students ++ [⟨newId, jsUpper data.nim, data.nama, data.email,
        data.jurusan, data.semester, data.ipk, data.tanggalMasuk⟩])

/-- The guard of the validation branch of `updateStudent`:
`data.nim || data.nama || data.email || data.jurusan ||
data.semester !== undefined || data.ipk !== undefined`. -/
def patchTouchesValidated (data : StudentPatch) : Bool :=
  strTruthy data.nim || strTruthy data.nama || strTruthy data.email ||
    strTruthy data.jurusan || data.semester.isSome || data.ipk.isSome

/-- The guard `data.nim && data.nim !== currentStudent.nim` of the nim
uniqueness re-check. -/
def patchChangesNim (data : StudentPatch) (currentStudent : IStudent) : Bool :=
  match data.nim with
  | some v => v ≠ "" && v ≠ currentStudent.nim
  | none => false

/-- The validation branch of `updateStudent`: `true` when no exception is
thrown.  When the patch touches a validated field, the target must exist, the
merged record `{ ...current, ...data }` must validate, and a changed `nim`
must stay unique among the other records. -/
def updateChecksPass (students : List IStudent) (id : String)
    (data : StudentPatch) : Bool :=
  if patchTouchesValidated data then
    match students.find? (fun s => s.id == id) with
    | none => false
    | some currentStudent =>
      let updatedData := spreadPatch currentStudent data
      let validation := validateAllFields
        ⟨updatedData.nim, updatedData.nama, updatedData.email,
          updatedData.jurusan, updatedData.semester, updatedData.ipk⟩
      if ¬ validation.isValid then false
      else if patchChangesNim data currentStudent then
        ¬ students.any (fun s =>
          s.id != id && jsLower s.nim == jsLower (data.nim.getD ""))
      else true
  else true

/-- Models `updateStudent`: any failed check throws, which surfaces as
`(false, students)`; otherwise the collection is mapped, patching the record
whose id matches, and the call reports success. -/
def updateStudent (students : List IStudent) (id : String)
    (data : StudentPatch) : Bool × List IStudent :=
  if updateChecksPass students id data then
    (true, students.map (fun s => if s.id == id then applyPatch s data else s))
  else (false, students)

/-! ### Auxiliary definitions used by the claim statements -/

/-- Names of the six validated fields. -/
inductive FieldKey where
  | nim | nama | email | jurusan | semester | ipk
deriving DecidableEq

/-- Looks a field key up in the errors record. -/
def FieldErrors.get (e : FieldErrors) : FieldKey → Option String
  | .nim => e.nim
  | .nama => e.nama
  | .email => e.email
  | .jurusan => e.jurusan
  | .semester => e.semester
  | .ipk => e.ipk

/-- The single-field validator selected by a field key. -/
def fieldResult (data : StudentFields) : FieldKey → ValidationResult
  | .nim => validateNIM data.nim
  | .nama => validateNama data.nama
  | .email => validateEmail data.email
  | .jurusan => validateJurusan data.jurusan
  | .semester => validateSemester data.semester
  | .ipk => validateIPK data.ipk

/-- The comparison rule of the claims, as a relation: ascending order sorts by
`getFieldValue` non-decreasing, descending order non-increasing. -/
def ordLe (field : SortField) (order : SortOrder) (a b : IStudent) : Prop :=
  match order with
  | .asc => getFieldValue a field ≤ getFieldValue b field
  | .desc => getFieldValue b field ≤ getFieldValue a field

/-! ### Concrete sample values for the scenario claims and witnesses -/

/-- The rational 3.5 = 7/2, written in reduced form so that the kernel can
evaluate comparisons against it. -/
def ipk35 : ℚ := ⟨7, 2, by decide, by norm_num⟩

/-- A student record with the given id, nim and ipk (remaining fields fixed
valid values). -/
def ipkStu (id nim : String) (ipk : ℚ) : IStudent :=
  { id := id, nim := nim, nama := "Aa", email := "a@mail.com", jurusan := "TI",
    semester := 1, ipk := ipk, tanggalMasuk := "2024-01-01" }

/-! ### Claim theorems -/

/-- An entry of the errors record is absent exactly when its validator
passed. -/
theorem ite_none_eq_none {c : Bool} {m : String} :
    ((if c = true then none else some m) = (none : Option String)) ↔
      c = true := by
  cases c <;> simp

/-- Each key of the errors record built by `validateAllFields` holds the
failing validator's message, and is absent when that validator passed. -/
theorem validateAllFields_get (data : StudentFields) (f : FieldKey) :
    (validateAllFields data).errors.get f =
      if (fieldResult data f).isValid then none
      else some (fieldResult data f).message := by
  cases f <;> rfl

/-- `validateAllFields` is valid exactly when all six validators pass. -/
theorem validateAllFields_isValid_iff (data : StudentFields) :
    (validateAllFields data).isValid = true ↔
      ∀ f, (fieldResult data f).isValid = true := by
  simp only [validateAllFields, Bool.and_eq_true, Option.isNone_iff_eq_none,
    ite_none_eq_none]
  constructor
  · rintro ⟨⟨⟨⟨⟨h1, h2⟩, h3⟩, h4⟩, h5⟩, h6⟩ f
    cases f <;> assumption
  · intro h
    exact ⟨⟨⟨⟨⟨h .nim, h .nama⟩, h .email⟩, h .jurusan⟩, h .semester⟩, h .ipk⟩

/-- The empty character list is a substring of every character list. -/
theorem charsIncludes_nil (hay : List Char) : charsIncludes hay [] = true := by
  cases hay <;> simp [charsIncludes, isPrefixOfChars]

/-- C9: `bubbleSort` on the three-record collection with ipk values
`[3.0, 2.0, 3.5]`, field `ipk`, order `asc` returns the records in ipk order
`[2.0, 3.0, 3.5]` with `comparisons = 3`; the first pass swaps, and the second
pass observes no swap, which is exactly the condition on which the outer loop
`break`s early. -/
theorem C9_bubbleSort_scenario :
    (bubbleSort [ipkStu "s1" "N1" 3, ipkStu "s2" "N2" 2, ipkStu "s3" "N3" ipk35]
        .ipk .asc).sortedData
      = [ipkStu "s2" "N2" 2, ipkStu "s1" "N1" 3, ipkStu "s3" "N3" ipk35] ∧
    (bubbleSort [ipkStu "s1" "N1" 3, ipkStu "s2" "N2" 2, ipkStu "s3" "N3" ipk35]
        .ipk .asc).comparisons = 3 ∧
    (bubblePass (sortLt .ipk .asc) 2
        [ipkStu "s1" "N1" 3, ipkStu "s2" "N2" 2, ipkStu "s3" "N3" ipk35]).swapped
      = true ∧
    (bubblePass (sortLt .ipk .asc) 1
        (bubblePass (sortLt .ipk .asc) 2
          [ipkStu "s1" "N1" 3, ipkStu "s2" "N2" 2,
            ipkStu "s3" "N3" ipk35]).data).swapped = false := by
  decide

/-- C10: `linearSearch` with the empty query finds the head of any non-empty
collection at index 0 with one comparison (every string contains the empty
substring), and on the empty collection any query yields the not-found result
with zero comparisons. -/
theorem C10_linearSearch_empty_cases :
    (∀ (s : IStudent) (rest : List IStudent) (f : SearchField),
      linearSearch (s :: rest) "" f =
        { found := true, index := 0, student := some s, comparisons := 1,
          timeComplexity := "O(n)", algorithm := "Linear Search" }) ∧
    (∀ (q : String) (f : SearchField),
      linearSearch [] q f =
        { found := false, index := -1, student := none, comparisons := 0,
          timeComplexity := "O(n)", algorithm := "Linear Search" }) := by
  constructor
  · intro s rest f
    simp [linearSearch, linearSearchLoop, lowerChars, charsIncludes_nil]
  · intro q f
    rfl

/-- If no record's lower-cased field value equals the lower-cased query, the
binary-search loop reports the not-found result, for any window that stays
inside the collection. -/
theorem binarySearchLoop_not_found (students : List IStudent) (q : String)
    (field : SearchField)
    (hq : ∀ i : Nat, i < students.length →
      searchKey (students.getD i default) field ≠ lowerChars q.data) :
    ∀ (n : Nat) (left : Nat) (right : Int) (c : Nat),
      (right + 1 - left).toNat = n → right < (students.length : Int) →
      (binarySearchLoop students q field left right c).found = false ∧
      (binarySearchLoop students q field left right c).index = -1 ∧
      (binarySearchLoop students q field left right c).student = none := by
  intro n
  induction n using Nat.strong_induction_on with
  | _ n IH =>
    intro left right c hm hlen
    rw [binarySearchLoop]
    simp only []
    split_ifs with h heq hlt
    · exact absurd heq (hq (((left : Int) + right) / 2).toNat (by omega))
    · exact IH _ (by omega) _ _ _ rfl hlen
    · exact IH _ (by omega) _ _ _ rfl (by omega)
    · exact ⟨rfl, rfl, rfl⟩

/-- If the window `[left, right]` contains an index whose lower-cased field
value equals the lower-cased query and the collection is sorted ascending on
that lower-cased field, the binary-search loop finds some matching index. -/
theorem binarySearchLoop_found (students : List IStudent) (q : String)
    (field : SearchField)
    (hs : students.Pairwise
      (fun a b => searchKey a field ≤ searchKey b field)) :
    ∀ (n : Nat) (left : Nat) (right : Int) (c : Nat),
      (right + 1 - left).toNat = n → right < (students.length : Int) →
      (∃ i : Nat, i < students.length ∧ left ≤ i ∧ (i : Int) ≤ right ∧
        searchKey (students.getD i default) field = lowerChars q.data) →
      ∃ k : Nat, k < students.length ∧
        (binarySearchLoop students q field left right c).found = true ∧
        (binarySearchLoop students q field left right c).index = (k : Int) ∧
        (binarySearchLoop students q field left right c).student
          = some (students.getD k default) ∧
        searchKey (students.getD k default) field = lowerChars q.data := by
  have hpw : ∀ (i j : Nat), i ≤ j → j < students.length →
      searchKey (students.getD i default) field
        ≤ searchKey (students.getD j default) field := by
    intro i j hij hj
    rcases Nat.lt_or_ge i j with hlt | hge
    · have := List.pairwise_iff_getElem.mp hs i j (by omega) hj hlt
      rwa [List.getD_eq_getElem students default (by omega),
        List.getD_eq_getElem students default hj]
    · have : i = j := by omega
      subst this
      exact le_refl _
  intro n
  induction n using Nat.strong_induction_on with
  | _ n IH =>
    intro left right c hm hlen hex
    obtain ⟨i, hilen, hli, hir, hikey⟩ := hex
    have h : (left : Int) ≤ right := by omega
    rw [binarySearchLoop]
    simp only []
    split_ifs with heq hlt
    · refine ⟨(((left : Int) + right) / 2).toNat, by omega, rfl, by simp; omega,
        rfl, heq⟩
    · -- the record at mid is strictly below the query: the match lies right
      -- of mid
      have hmidlen : (((left : Int) + right) / 2).toNat < students.length := by
        omega
      have hinext : ¬ (i : Int) ≤ ((left : Int) + right) / 2 := by
        intro hle
        have hle2 := hpw i (((left : Int) + right) / 2).toNat (by omega) hmidlen
        rw [hikey] at hle2
        exact absurd (lt_of_le_of_lt hle2 hlt) (lt_irrefl _)
      exact IH _ (by omega) _ _ _ rfl hlen ⟨i, hilen, by omega, hir, hikey⟩
    · -- the record at mid is strictly above the query: the match lies left
      -- of mid
      have hgt : lowerChars q.data
          < searchKey (students.getD (((left : Int) + right) / 2).toNat
              default) field :=
        lt_of_le_of_ne (le_of_not_lt hlt) (Ne.symm heq)
      have hinext : ¬ ((((left : Int) + right) / 2) ≤ (i : Int)) := by
        intro hle
        have hle2 := hpw (((left : Int) + right) / 2).toNat i (by omega) hilen
        rw [hikey] at hle2
        exact absurd (lt_of_lt_of_le hgt hle2) (lt_irrefl _)
      exact IH _ (by omega) _ _ _ rfl (by omega) ⟨i, hilen, hli, by omega, hikey⟩

/-- C8: after `save(collection)` then `clear()`, `restoreFromBackup()`
succeeds, returns exactly the saved collection, and writes the pre-clear
snapshot back into the current slot. -/
theorem C8_save_clear_restore (students : List IStudent) (st : Storage)
    (now : String) :
    (restoreFromBackup (clearAllData (saveToFile now students st).2).2).1.success
        = true ∧
    (restoreFromBackup (clearAllData (saveToFile now students st).2).2).1.data
        = some students ∧
    (restoreFromBackup (clearAllData (saveToFile now students st).2).2).2.current
        = some ⟨"1.0", now, students.length, students⟩ := by
  simp [saveToFile, clearAllData, restoreFromBackup]

/-- C4 counterexample: an update whose payload itself contains `tanggalMasuk`
succeeds and overwrites `tanggalMasuk`, because the source spreads the raw
payload over the record (`{ ...s, ...data, ... }`); the claim quantifies over
every payload, so it fails on this one. -/
theorem C4_counterexample :
    (updateStudent [ipkStu "a" "N1" 3] "a"
        { tanggalMasuk := some "2099-12-31" }).1 = true ∧
    ((updateStudent [ipkStu "a" "N1" 3] "a"
        { tanggalMasuk := some "2099-12-31" }).2.map IStudent.tanggalMasuk)
      = ["2099-12-31"] ∧
    (ipkStu "a" "N1" 3).tanggalMasuk = "2024-01-01" := by
  decide

/-- C4 (amended): for every payload that does not itself carry the `id` or
`tanggalMasuk` keys, an update — successful or not — leaves every record's
`id` and `tanggalMasuk` unchanged. -/
theorem C4_update_preserves_id_tanggalMasuk (students : List IStudent)
    (id : String) (data : StudentPatch)
    (hid : data.id = none) (ht : data.tanggalMasuk = none) :
    ((updateStudent students id data).2.map (fun s => (s.id, s.tanggalMasuk)))
      = students.map (fun s => (s.id, s.tanggalMasuk)) := by
  by_cases hp : updateChecksPass students id data
  · simp only [updateStudent, hp, if_pos, List.map_map]
    refine List.map_congr_left ?_
    intro s _
    by_cases h : s.id = id <;>
      simp [h, applyPatch, spreadPatch, hid, ht]
  · simp [updateStudent, hp]

/-- Witness for the amended C4 theorem at a concrete input. -/
theorem C4_update_preserves_witness :
    ((updateStudent [ipkStu "a" "N1" 3] "a" { nama := some "Bb" }).2.map
        (fun s => (s.id, s.tanggalMasuk)))
      = [ipkStu "a" "N1" 3].map (fun s => (s.id, s.tanggalMasuk)) :=
  C4_update_preserves_id_tanggalMasuk [ipkStu "a" "N1" 3] "a"
    { nama := some "Bb" } rfl rfl

/-- C5 counterexample: an update with an empty payload against an id that is
absent (here: the empty collection) returns `true`, not the claimed
not-found failure, because the source only looks the id up inside the
validation branch, which an empty payload skips. -/
theorem C5_counterexample :
    updateStudent [] "x" ({} : StudentPatch) = (true, []) := by
  decide

/-- C5 (amended): when the payload touches at least one validated field
(truthy `nim`/`nama`/`email`/`jurusan`, or present `semester`/`ipk`) and the
target id is absent, the update fails with `false` and leaves the collection
unchanged. -/
theorem C5_update_missing_id_fails (students : List IStudent) (id : String)
    (data : StudentPatch)
    (htouch : patchTouchesValidated data = true)
    (habsent : ∀ s ∈ students, s.id ≠ id) :
    updateStudent students id data = (false, students) := by
  have hfind : students.find? (fun s => s.id == id) = none := by
    rw [List.find?_eq_none]
    intro x hx
    simpa using habsent x hx
  simp [updateStudent, updateChecksPass, htouch, hfind]

/-- Witness for the amended C5 theorem at a concrete input. -/
theorem C5_update_missing_id_witness :
    updateStudent [ipkStu "a" "N1" 3] "zzz" { nim := some "X1" }
      = (false, [ipkStu "a" "N1" 3]) :=
  C5_update_missing_id_fails [ipkStu "a" "N1" 3] "zzz" { nim := some "X1" }
    (by decide) (by decide)

/-- C6: starting from the empty collection, adding a valid record with
`nim = "if123456"` succeeds and stores the nim upper-cased; a subsequent add
of an otherwise-valid record with `nim = "IF123456"` fails (case-insensitive
uniqueness) and leaves the collection unchanged. -/
theorem C6_addStudent_nim_uniqueness :
    (addStudent "uuid-1" []
        ⟨"if123456", "Budi", "budi@mail.com", "Informatika", 3, ipk35,
          "2024-01-01"⟩).1 = true ∧
    ((addStudent "uuid-1" []
        ⟨"if123456", "Budi", "budi@mail.com", "Informatika", 3, ipk35,
          "2024-01-01"⟩).2.map IStudent.nim) = ["IF123456"] ∧
    addStudent "uuid-2"
        (addStudent "uuid-1" []
          ⟨"if123456", "Budi", "budi@mail.com", "Informatika", 3, ipk35,
            "2024-01-01"⟩).2
        ⟨"IF123456", "Siti", "siti@mail.com", "Informatika", 2, 3,
          "2024-02-01"⟩
      = (false, (addStudent "uuid-1" []
          ⟨"if123456", "Budi", "budi@mail.com", "Informatika", 3, ipk35,
            "2024-01-01"⟩).2) := by
  decide

/-- C3: over a collection sorted ascending by the field under case-insensitive
lexical comparison, `binarySearch` finds a case-insensitive exact match
whenever one exists — returning `found = true` at an index whose record's
field value equals the query case-insensitively — and returns `found = false`
with `index = -1` and `student = null` when no record matches. -/
theorem C3_binarySearch_correct (students : List IStudent) (q : String)
    (field : SearchField)
    (hs : students.Pairwise
      (fun a b => searchKey a field ≤ searchKey b field)) :
    ((∃ s ∈ students, searchKey s field = lowerChars q.data) →
      ∃ k : Nat, k < students.length ∧
        (binarySearch students q field).found = true ∧
        (binarySearch students q field).index = (k : Int) ∧
        (binarySearch students q field).student
          = some (students.getD k default) ∧
        searchKey (students.getD k default) field = lowerChars q.data) ∧
    ((∀ s ∈ students, searchKey s field ≠ lowerChars q.data) →
      (binarySearch students q field).found = false ∧
      (binarySearch students q field).index = -1 ∧
      (binarySearch students q field).student = none) := by
  constructor
  · rintro ⟨s, hmem, hkey⟩
    obtain ⟨i, hi, hgetel⟩ := List.mem_iff_getElem.mp hmem
    refine binarySearchLoop_found students q field hs _ 0
      ((students.length : Int) - 1) 0 rfl (by omega)
      ⟨i, hi, by omega, by omega, ?_⟩
    rw [List.getD_eq_getElem students default hi, hgetel]
    exact hkey
  · intro hnone
    refine binarySearchLoop_not_found students q field ?_ _ 0
      ((students.length : Int) - 1) 0 rfl (by omega)
    intro i hi
    rw [List.getD_eq_getElem students default hi]
    exact hnone _ (List.getElem_mem hi)

/-- Witness for the C3 theorem: a two-record collection sorted by `nim`, one
query that hits (case-insensitively) and one that misses. -/
theorem C3_binarySearch_witness :
    (binarySearch [ipkStu "w1" "A1" 3, ipkStu "w2" "B2" 3] "b2" .nim).found
      = true ∧
    (binarySearch [ipkStu "w1" "A1" 3, ipkStu "w2" "B2" 3] "zz" .nim).found
      = false := by
  refine ⟨?_, (((C3_binarySearch_correct
      [ipkStu "w1" "A1" 3, ipkStu "w2" "B2" 3] "zz" .nim (by decide)).2)
      (by decide)).1⟩
  obtain ⟨k, _, hf, _⟩ := (C3_binarySearch_correct
      [ipkStu "w1" "A1" 3, ipkStu "w2" "B2" 3] "b2" .nim (by decide)).1
    ⟨ipkStu "w2" "B2" 3, by decide, by decide⟩
  exact hf

/-- C7: for a record where all six fields validate, `validateAllFields`
returns `isValid = true` with an empty errors mapping; for a record violating
exactly one field's rule, `isValid = false` and the errors mapping contains
that field's key with its failure message and no other key. -/
theorem C7_validateAllFields_aggregate :
    (∀ data : StudentFields,
      (∀ f, (fieldResult data f).isValid = true) →
      validateAllFields data = ⟨true, {}⟩) ∧
    (∀ (data : StudentFields) (f : FieldKey),
      (fieldResult data f).isValid = false →
      (∀ g, g ≠ f → (fieldResult data g).isValid = true) →
      (validateAllFields data).isValid = false ∧
      (validateAllFields data).errors.get f
          = some (fieldResult data f).message ∧
      ∀ g, g ≠ f → (validateAllFields data).errors.get g = none) := by
  constructor
  · intro data h
    have h1 := h .nim
    have h2 := h .nama
    have h3 := h .email
    have h4 := h .jurusan
    have h5 := h .semester
    have h6 := h .ipk
    simp only [fieldResult] at h1 h2 h3 h4 h5 h6
    simp [validateAllFields, h1, h2, h3, h4, h5, h6]
  · intro data f hf hg
    refine ⟨?_, ?_, ?_⟩
    · cases hv : (validateAllFields data).isValid with
      | false => rfl
      | true =>
        exact absurd ((validateAllFields_isValid_iff data).mp hv f)
          (by simp [hf])
    · rw [validateAllFields_get]
      simp [hf]
    · intro g hgf
      rw [validateAllFields_get]
      simp [hg g hgf]

/-- Witness for the C7 theorem: a fully valid record, and a record whose only
violation is `semester = 15`. -/
theorem C7_validateAllFields_witness :
    validateAllFields ⟨"IF1", "Budi", "budi@mail.com", "Informatika", 3, 3⟩
      = ⟨true, {}⟩ ∧
    (validateAllFields
        ⟨"IF1", "Budi", "budi@mail.com", "Informatika", 15, 3⟩).isValid
      = false :=
  ⟨C7_validateAllFields_aggregate.1 _ (fun f => by cases f <;> decide),
    (C7_validateAllFields_aggregate.2 _ .semester (by decide)
      (by intro g hg
          cases g
          case semester => exact absurd rfl hg
          all_goals decide)).1⟩

/-! ### Correctness of the sort cores

The lemmas are generic in the element type and in the boolean out-of-order
test `lt` (the `shouldSwap`/`shouldSelect`/`shouldShift` test of the source).
Two hypotheses, satisfied by the field comparison of every sort field and
order, drive all of them: `hA` — the test is asymmetric — and `hT` — its
complement (the sortedness relation `fun a c => lt a c = false`) is
transitive. -/

section SortProofs

variable {α : Type} {lt : α → α → Bool}

/-- The out-of-order test never fires on identical elements. -/
theorem lt_self_eq_false (hA : ∀ a b, lt a b = true → lt b a = false)
    (a : α) : lt a a = false := by
  cases h : lt a a with
  | false => rfl
  | true => exact absurd (hA a a h) (by simp [h])

/-- A bubble pass permutes the list. -/
theorem bubblePass_perm : ∀ (b : Nat) (xs : List α),
    (bubblePass lt b xs).data.Perm xs := by
  intro b
  induction b with
  | zero => intro xs; simp [bubblePass]
  | succ b ih =>
    intro xs
    match xs with
    | [] => simp [bubblePass]
    | [x] => simp [bubblePass]
    | x :: y :: rest =>
      simp only [bubblePass]
      split
      · exact ((ih (x :: rest)).cons y).trans (List.Perm.swap x y rest)
      · exact (ih (y :: rest)).cons x

/-- A bubble pass preserves the length. -/
theorem bubblePass_length (b : Nat) (xs : List α) :
    (bubblePass lt b xs).data.length = xs.length :=
  (bubblePass_perm b xs).length_eq

/-- A pass that performs no swap leaves the data unchanged and certifies that
the compared prefix is adjacent-sorted. -/
theorem bubblePass_no_swap : ∀ (b : Nat) (xs : List α),
    (bubblePass lt b xs).swapped = false →
    (bubblePass lt b xs).data = xs ∧
      List.Chain' (fun a c => lt a c = false) (xs.take (b + 1)) := by
  intro b
  induction b with
  | zero =>
    intro xs _
    exact ⟨rfl, by cases xs <;> simp⟩
  | succ b ih =>
    intro xs
    match xs with
    | [] => intro _; exact ⟨rfl, by simp⟩
    | [x] => intro _; exact ⟨rfl, by simp⟩
    | x :: y :: rest =>
      simp only [bubblePass]
      split
      · intro h
        exact absurd h (by simp)
      · rename_i hxy
        intro h
        obtain ⟨hdata, hchain⟩ := ih (y :: rest) (by simpa using h)
        refine ⟨by simp [hdata], ?_⟩
        rw [List.take_succ_cons]
        rw [List.take_succ_cons] at hchain
        exact List.Chain'.cons (by simpa using hxy) hchain

/-- Structure of a bubble pass with bound `b` on `x :: l`: the first `b + 1`
slots are permuted so that an upper bound `m` of them (under the complement
relation) lands in slot `b`, and the rest of the list is untouched. -/
theorem bubblePass_split (hA : ∀ a b, lt a b = true → lt b a = false)
    (hT : ∀ a b c, lt a b = false → lt b c = false → lt a c = false) :
    ∀ (b : Nat) (x : α) (l : List α), b ≤ l.length →
    ∃ pre m, (bubblePass lt b (x :: l)).data = pre ++ m :: l.drop b ∧
      pre.length = b ∧ (pre ++ [m]).Perm (x :: l.take b) ∧
      (∀ a ∈ pre, lt a m = false) ∧ lt x m = false := by
  intro b
  induction b with
  | zero =>
    intro x l _
    exact ⟨[], x, by simp [bubblePass], rfl, by simp, by simp,
      lt_self_eq_false hA x⟩
  | succ b ih =>
    intro x l hb
    match l with
    | [] => simp at hb
    | y :: rest =>
      have hb' : b ≤ rest.length := by simpa using hb
      simp only [bubblePass]
      split
      · rename_i hxy
        obtain ⟨pre, m, hdata, hlen, hperm, hpre, hxm⟩ := ih x rest hb'
        refine ⟨y :: pre, m, by simp [hdata], by simp [hlen], ?_, ?_, ?_⟩
        · rw [List.take_succ_cons]
          exact ((hperm.cons y).trans (List.Perm.swap x y (List.take b rest)))
        · intro a ha
          rcases List.mem_cons.mp ha with h | h
          · subst h
            exact hT a x m (hA x a (by simpa using hxy)) hxm
          · exact hpre a h
        · exact hxm
      · rename_i hxy
        obtain ⟨pre, m, hdata, hlen, hperm, hpre, hym⟩ := ih y rest hb'
        refine ⟨x :: pre, m, by simp [hdata], by simp [hlen], ?_, ?_, ?_⟩
        · rw [List.take_succ_cons]
          exact hperm.cons x
        · intro a ha
          rcases List.mem_cons.mp ha with h | h
          · subst h
            exact hT a y m (by simpa using hxy) hym
          · exact hpre a h
        · exact hT x y m (by simpa using hxy) hym

/-- The bubble-sort outer loop permutes the list. -/
theorem bubbleLoop_perm : ∀ (k : Nat) (xs : List α),
    (bubbleLoop lt k xs).data.Perm xs := by
  intro k
  induction k with
  | zero => intro xs; simp [bubbleLoop]
  | succ k ih =>
    intro xs
    simp only [bubbleLoop]
    split
    · exact (ih _).trans (bubblePass_perm (k + 1) xs)
    · exact bubblePass_perm (k + 1) xs

/-- Sortedness invariant of the bubble-sort outer loop: with `k` iterations
remaining, the suffix beyond slot `k` is already sorted and dominates the
prefix; the loop then sorts the whole list. -/
theorem bubbleLoop_sorted (hA : ∀ a b, lt a b = true → lt b a = false)
    (hT : ∀ a b c, lt a b = false → lt b c = false → lt a c = false) :
    ∀ (k : Nat) (xs : List α), k < xs.length →
    (xs.drop (k + 1)).Pairwise (fun a c => lt a c = false) →
    (∀ a ∈ xs.take (k + 1), ∀ c ∈ xs.drop (k + 1), lt a c = false) →
    (bubbleLoop lt k xs).data.Pairwise (fun a c => lt a c = false) := by
  intro k
  induction k with
  | zero =>
    intro xs hk hdrop hcross
    match xs with
    | z :: zs =>
      simp only [bubbleLoop]
      refine List.pairwise_cons.mpr ⟨fun c hc => ?_, by simpa using hdrop⟩
      exact hcross z (by simp) c (by simpa using hc)
  | succ k ih =>
    intro xs hk hdrop hcross
    match xs with
    | x :: l =>
      have hb : k + 1 ≤ l.length := by
        simp only [List.length_cons] at hk
        omega
      obtain ⟨pre, m, hdata, hlen, hperm, hpre, hxm⟩ :=
        bubblePass_split hA hT (k + 1) x l hb
      have hmem_pre : ∀ a ∈ pre, a ∈ (x :: l).take (k + 2) := by
        intro a ha
        have : a ∈ pre ++ [m] := by simp [ha]
        have := hperm.mem_iff.mp this
        simpa [List.take_succ_cons] using this
      have hmem_m : m ∈ (x :: l).take (k + 2) := by
        have : m ∈ pre ++ [m] := by simp
        have := hperm.mem_iff.mp this
        simpa [List.take_succ_cons] using this
      simp only [bubbleLoop]
      split
      · -- a swap happened: recurse with the invariant re-established
        apply ih
        · rw [bubblePass_length]
          simp only [List.length_cons] at hk ⊢
          omega
        · have hdropeq : ((bubblePass lt (k + 1) (x :: l)).data).drop (k + 1)
              = m :: l.drop (k + 1) := by
            rw [hdata, ← hlen, List.drop_left]
          rw [hdropeq]
          refine List.pairwise_cons.mpr ⟨fun c hc => ?_, ?_⟩
          · exact hcross m hmem_m c (by simpa using hc)
          · simpa using hdrop
        · have htakeeq : ((bubblePass lt (k + 1) (x :: l)).data).take (k + 1)
              = pre := by
            rw [hdata, ← hlen, List.take_left]
          have hdropeq : ((bubblePass lt (k + 1) (x :: l)).data).drop (k + 1)
              = m :: l.drop (k + 1) := by
            rw [hdata, ← hlen, List.drop_left]
          rw [htakeeq, hdropeq]
          intro a ha c hc
          rcases List.mem_cons.mp hc with h | h
          · subst h
            exact hpre a ha
          · exact hcross a (hmem_pre a ha) c (by simpa using h)
      · -- no swap: the pass certifies adjacent sortedness of the prefix
        rename_i hsw
        obtain ⟨hpd, hchain⟩ :=
          bubblePass_no_swap (k + 1) (x :: l) (by simpa using hsw)
        rw [hpd, ← List.take_append_drop (k + 2) (x :: l)]
        refine List.pairwise_append.mpr ⟨?_, by simpa using hdrop, ?_⟩
        · exact (@List.chain'_iff_pairwise _ _ ⟨hT⟩ _).mp hchain
        · intro a ha c hc
          exact hcross a (by simpa using ha) c (by simpa using hc)

/-- `bubbleLoop` started as `bubbleSort` starts it sorts any list. -/
theorem bubbleSort_core_sorted (hA : ∀ a b, lt a b = true → lt b a = false)
    (hT : ∀ a b c, lt a b = false → lt b c = false → lt a c = false)
    (xs : List α) :
    (bubbleLoop lt (xs.length - 1) xs).data.Pairwise
      (fun a c => lt a c = false) := by
  match xs with
  | [] => simp [bubbleLoop]
  | x :: l =>
    have hlen : (x :: l).length - 1 = l.length := by simp
    rw [hlen]
    match hl : l.length with
    | 0 =>
      match l with
      | [] => simp [bubbleLoop]
    | n + 1 =>
      apply bubbleLoop_sorted hA hT
      · simp [hl]
      · have : (x :: l).drop (n + 2) = [] := by
          apply List.drop_eq_nil_of_le
          simp [hl]
        simp [this]
      · intro a _ c hc
        have : (x :: l).drop (n + 2) = [] := by
          apply List.drop_eq_nil_of_le
          simp [hl]
        rw [this] at hc
        simp at hc

/-- Extracting an element and writing a value into its slot is a permutation
of prepending the value. -/
theorem get_set_perm : ∀ (l : List α) (t : Nat) (ht : t < l.length) (v : α),
    (l.get ⟨t, ht⟩ :: l.set t v).Perm (v :: l) := by
  intro l
  induction l with
  | nil => intro t ht; simp at ht
  | cons a l' ih =>
    intro t ht v
    match t with
    | 0 => exact List.Perm.swap v a l'
    | t + 1 =>
      have ht' : t < l'.length := by simpa using ht
      exact ((List.Perm.swap a (l'.get ⟨t, ht'⟩) (l'.set t v)).trans
        ((ih t ht' v).cons a)).trans (List.Perm.swap v a l')

/-- Where the selection scan's result lives: either the initially selected
(index, value) pair survives, or the result indexes into the scanned list. -/
theorem selectScan_loc : ∀ (rest : List α) (selIdx : Nat) (sel : α) (j : Nat),
    ((selectScan lt selIdx sel j rest).1 = selIdx ∧
      (selectScan lt selIdx sel j rest).2 = sel) ∨
    (∃ (t : Nat) (ht : t < rest.length),
      (selectScan lt selIdx sel j rest).1 = j + t ∧
      rest.get ⟨t, ht⟩ = (selectScan lt selIdx sel j rest).2) := by
  intro rest
  induction rest with
  | nil => intro selIdx sel j; exact Or.inl ⟨rfl, rfl⟩
  | cons c rest' ih =>
    intro selIdx sel j
    by_cases h : lt sel c
    · have hstep : selectScan lt selIdx sel j (c :: rest')
          = selectScan lt j c (j + 1) rest' := by
        simp [selectScan, h]
      rw [hstep]
      rcases ih j c (j + 1) with ⟨h1, h2⟩ | ⟨t, ht, h1, h2⟩
      · exact Or.inr ⟨0, by simp, by rw [h1]; omega, by simpa using h2.symm⟩
      · exact Or.inr ⟨t + 1, by simpa using ht, by rw [h1]; omega,
          by simpa using h2⟩
    · have hstep : selectScan lt selIdx sel j (c :: rest')
          = selectScan lt selIdx sel (j + 1) rest' := by
        simp [selectScan, h]
      rw [hstep]
      rcases ih selIdx sel (j + 1) with ⟨h1, h2⟩ | ⟨t, ht, h1, h2⟩
      · exact Or.inl ⟨h1, h2⟩
      · exact Or.inr ⟨t + 1, by simpa using ht, by rw [h1]; omega,
          by simpa using h2⟩

/-- The selection scan returns a minimum (for the complement relation) of the
initially selected value and the scanned elements. -/
theorem selectScan_min (hA : ∀ a b, lt a b = true → lt b a = false)
    (hT : ∀ a b c, lt a b = false → lt b c = false → lt a c = false) :
    ∀ (rest : List α) (selIdx : Nat) (sel : α) (j : Nat),
    lt (selectScan lt selIdx sel j rest).2 sel = false ∧
    ∀ a ∈ rest, lt (selectScan lt selIdx sel j rest).2 a = false := by
  intro rest
  induction rest with
  | nil =>
    intro selIdx sel j
    exact ⟨lt_self_eq_false hA sel, by simp⟩
  | cons c rest' ih =>
    intro selIdx sel j
    by_cases h : lt sel c
    · have hstep : selectScan lt selIdx sel j (c :: rest')
          = selectScan lt j c (j + 1) rest' := by
        simp [selectScan, h]
      rw [hstep]
      obtain ⟨h1, h2⟩ := ih j c (j + 1)
      refine ⟨hT _ c sel h1 (hA sel c h), ?_⟩
      intro a ha
      rcases List.mem_cons.mp ha with rfl | ha'
      · exact h1
      · exact h2 a ha'
    · have hstep : selectScan lt selIdx sel j (c :: rest')
          = selectScan lt selIdx sel (j + 1) rest' := by
        simp [selectScan, h]
      rw [hstep]
      obtain ⟨h1, h2⟩ := ih selIdx sel (j + 1)
      refine ⟨h1, ?_⟩
      intro a ha
      rcases List.mem_cons.mp ha with rfl | ha'
      · exact hT _ sel a h1 (by simpa using h)
      · exact h2 a ha'

/-- Unfolds one iteration of the selection-sort outer loop. -/
theorem selectionLoop_cons_cons (x y : α) (rest : List α) :
    selectionLoop lt (x :: y :: rest) =
      ⟨(selectScan lt 0 x 1 (y :: rest)).2 ::
          (selectionLoop lt (if (selectScan lt 0 x 1 (y :: rest)).1 = 0
            then y :: rest
            else (y :: rest).set ((selectScan lt 0 x 1 (y :: rest)).1 - 1) x)).data,
        (y :: rest).length +
          (selectionLoop lt (if (selectScan lt 0 x 1 (y :: rest)).1 = 0
            then y :: rest
            else (y :: rest).set ((selectScan lt 0 x 1 (y :: rest)).1 - 1) x)).comparisons,
        (if (selectScan lt 0 x 1 (y :: rest)).1 = 0 then 0 else 1) +
          (selectionLoop lt (if (selectScan lt 0 x 1 (y :: rest)).1 = 0
            then y :: rest
            else (y :: rest).set ((selectScan lt 0 x 1 (y :: rest)).1 - 1) x)).swaps⟩ := by
  rw [selectionLoop]

/-- The head selected by one selection step together with the updated tail is
a permutation of the input suffix. -/
theorem selectionStep_perm (x y : α) (rest : List α) :
    ((selectScan lt 0 x 1 (y :: rest)).2 ::
      (if (selectScan lt 0 x 1 (y :: rest)).1 = 0
        then y :: rest
        else (y :: rest).set ((selectScan lt 0 x 1 (y :: rest)).1 - 1) x)).Perm
      (x :: y :: rest) := by
  rcases @selectScan_loc _ lt (y :: rest) 0 x 1 with ⟨h1, h2⟩ | ⟨t, ht, h1, h2⟩
  · rw [h1, h2]
    simp
  · have hne : (selectScan lt 0 x 1 (y :: rest)).1 ≠ 0 := by omega
    rw [if_neg hne]
    have hsub : (selectScan lt 0 x 1 (y :: rest)).1 - 1 = t := by omega
    rw [hsub, ← h2]
    exact get_set_perm (y :: rest) t ht x

/-- The selection-sort loop permutes the list. -/
theorem selectionLoop_perm : ∀ (n : Nat) (xs : List α), xs.length = n →
    (selectionLoop lt xs).data.Perm xs := by
  intro n
  induction n using Nat.strong_induction_on with
  | _ n IH =>
    intro xs hn
    match xs with
    | [] => simp [selectionLoop]
    | [x] => simp [selectionLoop]
    | x :: y :: rest =>
      rw [selectionLoop_cons_cons]
      have htail : (if (selectScan lt 0 x 1 (y :: rest)).1 = 0
          then y :: rest
          else (y :: rest).set ((selectScan lt 0 x 1 (y :: rest)).1 - 1) x).length
          = (y :: rest).length := by
        split <;> simp [List.length_set]
      have hlen2 : (y :: rest).length = n - 1 := by
        simp only [List.length_cons] at hn ⊢
        omega
      have hrec := IH (n - 1) (by simp only [List.length_cons] at hn; omega) _
        (htail.trans hlen2)
      exact (hrec.cons _).trans (selectionStep_perm x y rest)

/-- The selection-sort loop sorts any list. -/
theorem selectionLoop_sorted (hA : ∀ a b, lt a b = true → lt b a = false)
    (hT : ∀ a b c, lt a b = false → lt b c = false → lt a c = false) :
    ∀ (n : Nat) (xs : List α), xs.length = n →
    (selectionLoop lt xs).data.Pairwise (fun a c => lt a c = false) := by
  intro n
  induction n using Nat.strong_induction_on with
  | _ n IH =>
    intro xs hn
    match xs with
    | [] => simp [selectionLoop]
    | [x] => simp [selectionLoop]
    | x :: y :: rest =>
      rw [selectionLoop_cons_cons]
      have htail : (if (selectScan lt 0 x 1 (y :: rest)).1 = 0
          then y :: rest
          else (y :: rest).set ((selectScan lt 0 x 1 (y :: rest)).1 - 1) x).length
          = (y :: rest).length := by
        split <;> simp [List.length_set]
      have hlen2 : (y :: rest).length = n - 1 := by
        simp only [List.length_cons] at hn ⊢
        omega
      have hn1 : n - 1 < n := by
        simp only [List.length_cons] at hn
        omega
      refine List.pairwise_cons.mpr ⟨?_, IH (n - 1) hn1 _ (htail.trans hlen2)⟩
      intro c hc
      -- `c` sits in the recursively sorted tail, so it is an element of the
      -- original suffix; the scan's minimality bounds it.
      have hcmem : c ∈ x :: y :: rest := by
        have h1 := (@selectionLoop_perm _ lt (n - 1) _
          (htail.trans hlen2)).mem_iff.mp hc
        have h2 : c ∈ (selectScan lt 0 x 1 (y :: rest)).2 ::
            (if (selectScan lt 0 x 1 (y :: rest)).1 = 0
              then y :: rest
              else (y :: rest).set ((selectScan lt 0 x 1 (y :: rest)).1 - 1) x) :=
          List.mem_cons_of_mem _ h1
        exact (selectionStep_perm x y rest).mem_iff.mp h2
      obtain ⟨hminx, hmin⟩ := selectScan_min hA hT (y :: rest) 0 x 1
      rcases List.mem_cons.mp hcmem with rfl | h
      · exact hminx
      · exact hmin c h

/-- The insertion scan permutes: its result is the key prepended to the
prefix. -/
theorem insertScan_perm (key : α) : ∀ (pre : List α),
    (insertScan lt key pre).data.Perm (key :: pre) := by
  intro pre
  induction pre with
  | nil => simp [insertScan]
  | cons a rest ih =>
    simp only [insertScan]
    split
    · split
      · exact List.Perm.refl _
      · exact (ih.cons a).trans (List.Perm.swap key a rest)
    · exact (ih.cons a).trans (List.Perm.swap key a rest)

/-- When the insertion scan runs off the left end, every prefix element was
shifted: the data is the key followed by the unchanged prefix, and every
prefix element tested out-of-order against the key. -/
theorem insertScan_ranOff (key : α) : ∀ (pre : List α),
    (insertScan lt key pre).ranOff = true →
    (insertScan lt key pre).data = key :: pre ∧
      ∀ b ∈ pre, lt b key = true := by
  intro pre
  induction pre with
  | nil => intro _; exact ⟨rfl, by simp⟩
  | cons a rest ih =>
    simp only [insertScan]
    split
    · rename_i hro
      split
      · rename_i hak
        intro _
        refine ⟨rfl, ?_⟩
        intro b hb
        rcases List.mem_cons.mp hb with rfl | hb'
        · exact hak
        · exact (ih hro).2 b hb'
      · intro h
        exact absurd h (by simp)
    · intro h
      exact absurd h (by simp)

/-- The insertion scan keeps the prefix sorted, and whenever it stops early
some prefix element was in order with the key. -/
theorem insertScan_sorted (hA : ∀ a b, lt a b = true → lt b a = false)
    (hT : ∀ a b c, lt a b = false → lt b c = false → lt a c = false)
    (key : α) : ∀ (pre : List α),
    pre.Pairwise (fun a c => lt a c = false) →
    (insertScan lt key pre).data.Pairwise (fun a c => lt a c = false) ∧
      ((insertScan lt key pre).ranOff = false →
        ∃ b ∈ pre, lt b key = false) := by
  intro pre
  induction pre with
  | nil =>
    intro _
    refine ⟨by simp [insertScan], ?_⟩
    intro h
    exact absurd h (by simp [insertScan])
  | cons a rest ih =>
    intro hpw
    have ha_rest : ∀ b ∈ rest, lt a b = false :=
      (List.pairwise_cons.mp hpw).1
    have hpw' : rest.Pairwise (fun a c => lt a c = false) :=
      (List.pairwise_cons.mp hpw).2
    obtain ⟨ihs, ihr⟩ := ih hpw'
    simp only [insertScan]
    split
    · rename_i hro
      obtain ⟨hdata, hshifted⟩ := insertScan_ranOff key rest hro
      split
      · rename_i hak
        refine ⟨?_, ?_⟩
        · refine List.pairwise_cons.mpr ⟨?_, hpw⟩
          intro c hc
          rcases List.mem_cons.mp hc with hceq | hc'
          · rw [hceq]
            exact hA a key hak
          · exact hT key a c (hA a key hak) (ha_rest c hc')
        · intro h
          exact absurd h (by simp)
      · rename_i hak
        have hak' : lt a key = false := by simpa using hak
        refine ⟨?_, fun _ => ⟨a, by simp, hak'⟩⟩
        rw [hdata]
        refine List.pairwise_cons.mpr ⟨?_, ?_⟩
        · intro c hc
          rcases List.mem_cons.mp hc with hceq | hc'
          · rw [hceq]
            exact hak'
          · exact ha_rest c hc'
        · refine List.pairwise_cons.mpr ⟨?_, hpw'⟩
          intro c hc
          exact hA c key (hshifted c hc)
    · rename_i hro
      have hro' : (insertScan lt key rest).ranOff = false := by simpa using hro
      obtain ⟨b, hb, hbk⟩ := ihr hro'
      refine ⟨?_, fun _ => ⟨b, by simp [hb], hbk⟩⟩
      refine List.pairwise_cons.mpr ⟨?_, ihs⟩
      intro c hc
      have hc' : c ∈ key :: rest := (insertScan_perm key rest).mem_iff.mp hc
      rcases List.mem_cons.mp hc' with rfl | hc''
      · exact hT a b c (ha_rest b hb) hbk
      · exact ha_rest c hc''

/-- The insertion-sort loop permutes prefix and remainder. -/
theorem insertionLoop_perm : ∀ (rest pre : List α),
    (insertionLoop lt pre rest).data.Perm (pre ++ rest) := by
  intro rest
  induction rest with
  | nil => intro pre; simp [insertionLoop]
  | cons key rest' ih =>
    intro pre
    simp only [insertionLoop]
    exact ((ih _).trans ((insertScan_perm key pre).append_right rest')).trans
      List.perm_middle.symm

/-- The insertion-sort loop sorts, given a sorted prefix. -/
theorem insertionLoop_sorted (hA : ∀ a b, lt a b = true → lt b a = false)
    (hT : ∀ a b c, lt a b = false → lt b c = false → lt a c = false) :
    ∀ (rest pre : List α), pre.Pairwise (fun a c => lt a c = false) →
    (insertionLoop lt pre rest).data.Pairwise (fun a c => lt a c = false) := by
  intro rest
  induction rest with
  | nil => intro pre h; simpa [insertionLoop] using h
  | cons key rest' ih =>
    intro pre h
    simp only [insertionLoop]
    exact ih _ (insertScan_sorted hA hT key pre h).1

/-- The merge step permutes the concatenation of the two halves. -/
theorem mergeLists_perm : ∀ (l r : List α),
    (mergeLists lt l r).data.Perm (l ++ r) := by
  intro l r
  induction l, r using mergeLists.induct lt with
  | case1 right => simp [mergeLists]
  | case2 left => simp [mergeLists]
  | case3 a left b right hlt ih =>
    rw [mergeLists, if_pos hlt]
    exact (ih.cons b).trans List.perm_middle.symm
  | case4 a left b right hlt ih =>
    rw [mergeLists, if_neg hlt]
    exact ih.cons a

/-- The merge step of two sorted lists is sorted. -/
theorem mergeLists_sorted (hA : ∀ a b, lt a b = true → lt b a = false)
    (hT : ∀ a b c, lt a b = false → lt b c = false → lt a c = false) :
    ∀ (l r : List α), l.Pairwise (fun a c => lt a c = false) →
    r.Pairwise (fun a c => lt a c = false) →
    (mergeLists lt l r).data.Pairwise (fun a c => lt a c = false) := by
  intro l r
  induction l, r using mergeLists.induct lt with
  | case1 right =>
    intro _ hr
    simpa [mergeLists] using hr
  | case2 left =>
    intro hl _
    simpa [mergeLists] using hl
  | case3 a left b right hlt ih =>
    intro hl hr
    rw [mergeLists, if_pos hlt]
    refine List.pairwise_cons.mpr ⟨?_, ih hl (List.pairwise_cons.mp hr).2⟩
    intro c hc
    have hc' : c ∈ (a :: left) ++ right :=
      (mergeLists_perm (a :: left) right).mem_iff.mp hc
    rcases List.mem_append.mp hc' with hcl | hcr
    · rcases List.mem_cons.mp hcl with hceq | hcl'
      · rw [hceq]
        exact hA a b hlt
      · exact hT b a c (hA a b hlt) ((List.pairwise_cons.mp hl).1 c hcl')
    · exact (List.pairwise_cons.mp hr).1 c hcr
  | case4 a left b right hlt ih =>
    intro hl hr
    rw [mergeLists, if_neg hlt]
    refine List.pairwise_cons.mpr ⟨?_, ih (List.pairwise_cons.mp hl).2 hr⟩
    intro c hc
    have hc' : c ∈ left ++ (b :: right) :=
      (mergeLists_perm left (b :: right)).mem_iff.mp hc
    have hab : lt a b = false := by simpa using hlt
    rcases List.mem_append.mp hc' with hcl | hcr
    · exact (List.pairwise_cons.mp hl).1 c hcl
    · rcases List.mem_cons.mp hcr with hceq | hcr'
      · rw [hceq]
        exact hab
      · exact hT a b c hab ((List.pairwise_cons.mp hr).1 c hcr')

/-- The recursive merge sort permutes its input. -/
theorem mergeSortRun_perm : ∀ (l : List α),
    (mergeSortRun lt l).data.Perm l := by
  intro l
  induction l using mergeSortRun.induct lt with
  | case1 l h =>
    rw [mergeSortRun, dif_pos h]
  | case2 l h mid ih1 ih2 =>
    rw [mergeSortRun, dif_neg h]
    refine (mergeLists_perm _ _).trans ?_
    refine ((ih1.append ih2).trans ?_)
    rw [List.take_append_drop]

/-- The recursive merge sort sorts any list. -/
theorem mergeSortRun_sorted (hA : ∀ a b, lt a b = true → lt b a = false)
    (hT : ∀ a b c, lt a b = false → lt b c = false → lt a c = false) :
    ∀ (l : List α),
    (mergeSortRun lt l).data.Pairwise (fun a c => lt a c = false) := by
  intro l
  induction l using mergeSortRun.induct lt with
  | case1 l h =>
    rw [mergeSortRun, dif_pos h]
    match l, h with
    | [], _ => simp
    | [x], _ => simp
  | case2 l h mid ih1 ih2 =>
    rw [mergeSortRun, dif_neg h]
    exact mergeLists_sorted hA hT _ _ ih1 ih2

section Stability

variable {κ : Type} [DecidableEq κ] (k : α → κ)

/-- Stability of the merge step: filtering the merged output for any key
value concatenates the key's occurrences of the (sorted) left half before
those of the right half. -/
theorem mergeLists_stable
    (hA : ∀ a b, lt a b = true → lt b a = false)
    (hcross : ∀ a b x, lt a b = true → lt a x = false → k x ≠ k b) :
    ∀ (l r : List α), l.Pairwise (fun a c => lt a c = false) → ∀ (v : κ),
    (mergeLists lt l r).data.filter (fun x => decide (k x = v))
      = l.filter (fun x => decide (k x = v))
        ++ r.filter (fun x => decide (k x = v)) := by
  intro l r
  induction l, r using mergeLists.induct lt with
  | case1 right =>
    intro _ v
    simp [mergeLists]
  | case2 left =>
    intro _ v
    simp [mergeLists]
  | case3 a left b right hlt ih =>
    intro hl v
    rw [mergeLists, if_pos hlt]
    by_cases hkb : k b = v
    · have hnil : (a :: left).filter (fun x => decide (k x = v)) = [] := by
        rw [List.filter_eq_nil_iff]
        intro x hx
        rcases List.mem_cons.mp hx with hxeq | hx'
        · rw [hxeq]
          simpa [hkb] using hcross a b a hlt (lt_self_eq_false hA a)
        · simpa [hkb] using
            hcross a b x hlt ((List.pairwise_cons.mp hl).1 x hx')
      have hihv := ih hl v
      simp [List.filter_cons, hkb, hihv, hnil]
    · have hihv := ih hl v
      simp [List.filter_cons, hkb, hihv]
  | case4 a left b right hlt ih =>
    intro hl v
    rw [mergeLists, if_neg hlt]
    have hihv := ih (List.pairwise_cons.mp hl).2 v
    by_cases hka : k a = v <;> simp [List.filter_cons, hka, hihv]

/-- Stability of the full merge sort: filtering the output for any key value
gives exactly the input's occurrences, in input order. -/
theorem mergeSortRun_stable
    (hA : ∀ a b, lt a b = true → lt b a = false)
    (hT : ∀ a b c, lt a b = false → lt b c = false → lt a c = false)
    (hcross : ∀ a b x, lt a b = true → lt a x = false → k x ≠ k b) :
    ∀ (l : List α) (v : κ),
    (mergeSortRun lt l).data.filter (fun x => decide (k x = v))
      = l.filter (fun x => decide (k x = v)) := by
  intro l
  induction l using mergeSortRun.induct lt with
  | case1 l h =>
    intro v
    rw [mergeSortRun, dif_pos h]
  | case2 l h mid ih1 ih2 =>
    intro v
    rw [mergeSortRun, dif_neg h]
    rw [mergeLists_stable k hA hcross _ _ (mergeSortRun_sorted hA hT _) v]
    rw [ih1 v, ih2 v, ← List.filter_append, List.take_append_drop]

end Stability

/-! Shell-sort helpers: list surgery up to permutation. -/

/-- Writing at an index is, up to permutation, removing the old entry and
prepending the new value. -/
theorem set_perm_cons : ∀ (l : List α) (j : Nat) (v : α), j < l.length →
    (l.set j v).Perm (v :: l.eraseIdx j) := by
  intro l
  induction l with
  | nil => intro j v h; simp at h
  | cons a l' ih =>
    intro j v h
    match j with
    | 0 => exact List.Perm.refl _
    | j + 1 =>
      have h' : j < l'.length := by simpa using h
      exact ((ih j v h').cons a).trans (List.Perm.swap v a _)

/-- A list is, up to permutation, its `j`-th entry prepended to the rest. -/
theorem getD_perm_cons : ∀ (l : List α) (j : Nat) (d : α), j < l.length →
    l.Perm (l.getD j d :: l.eraseIdx j) := by
  intro l
  induction l with
  | nil => intro j d h; simp at h
  | cons a l' ih =>
    intro j d h
    match j with
    | 0 => exact List.Perm.refl _
    | j + 1 =>
      have h' : j < l'.length := by simpa using h
      exact ((ih j d h').cons a).trans (List.Perm.swap _ a _)

/-- Writing the entry `gap` slots to the left into slot `j` and then `temp`
into slot `j - gap` is, up to permutation, just writing `temp` into slot
`j`. -/
theorem set_shift_perm [Inhabited α] (l : List α) (j g : Nat) (temp : α)
    (hg : 0 < g) (hgj : g ≤ j) (hj : j < l.length) :
    ((l.set j (l.getD (j - g) default)).set (j - g) temp).Perm
      (l.set j temp) := by
  have hjg_len : j - g < l.length := by omega
  have hset_len : j - g < (l.set j (l.getD (j - g) default)).length := by
    rw [List.length_set]
    omega
  have hA := set_perm_cons l j (l.getD (j - g) default) hj
  have hB := set_perm_cons (l.set j (l.getD (j - g) default)) (j - g) temp
    hset_len
  have hC := getD_perm_cons (l.set j (l.getD (j - g) default)) (j - g) default
    hset_len
  have hgetD : (l.set j (l.getD (j - g) default)).getD (j - g) default
      = l.getD (j - g) default := by
    rw [List.getD_eq_getElem _ _ hset_len, List.getElem_set_ne (by omega)]
    exact (List.getD_eq_getElem _ _ hjg_len).symm
  rw [hgetD] at hC
  have hX := List.Perm.cons_inv (hC.symm.trans hA)
  exact hB.trans ((hX.cons temp).trans (set_perm_cons l j temp hj).symm)

/-- The inner shell-sort shift, followed by the pending write of `temp` at
the final position, permutes like a single write of `temp` at the start
position. -/
theorem shellShift_set_perm [Inhabited α] (gap : Nat) (temp : α) :
    ∀ (l : List α) (j : Nat), j < l.length →
    ((shellShift lt gap temp l j).data.set (shellShift lt gap temp l j).j
        temp).Perm (l.set j temp) := by
  intro l j
  induction l, j using shellShift.induct lt gap temp with
  | case1 l j h hlt ih =>
    intro hj
    rw [shellShift, dif_pos h, if_pos hlt]
    have hrec := ih (by rw [List.length_set]; omega)
    exact hrec.trans (set_shift_perm l j gap temp h.1 h.2 hj)
  | case2 l j h hlt =>
    intro hj
    rw [shellShift, dif_pos h, if_neg hlt]
  | case3 l j h =>
    intro hj
    rw [shellShift, dif_neg h]

/-- Writing back the entry just read leaves the list unchanged. -/
theorem set_getD_self : ∀ (l : List α) (i : Nat) (d : α), i < l.length →
    l.set i (l.getD i d) = l := by
  intro l
  induction l with
  | nil => intro i d h; simp at h
  | cons a l' ih =>
    intro i d h
    match i with
    | 0 => rfl
    | i + 1 =>
      have h' : i < l'.length := by simpa using h
      show (a :: l').set (i + 1) ((a :: l').getD (i + 1) d) = a :: l'
      rw [List.getD_cons_succ, List.set_cons_succ, ih i d h']

/-- The shell-sort sweep permutes the list. -/
theorem shellSweep_perm [Inhabited α] (gap : Nat) :
    ∀ (l : List α) (i : Nat), (shellSweep lt gap l i).data.Perm l := by
  intro l i
  induction l, i using shellSweep.induct lt gap with
  | case1 l i h temp r ih =>
    rw [shellSweep, dif_pos h]
    refine ih.trans ?_
    refine (shellShift_set_perm gap _ l i h).trans ?_
    rw [set_getD_self l i default h]
  | case2 l i h =>
    rw [shellSweep, dif_neg h]

/-- Reading at the boundary of an append picks the head of the right part. -/
theorem getD_append_length : ∀ (l₁ : List α) (x : α) (l₂ : List α) (d : α),
    (l₁ ++ x :: l₂).getD l₁.length d = x := by
  intro l₁
  induction l₁ with
  | nil => intro x l₂ d; rfl
  | cons a l₁' ih =>
    intro x l₂ d
    show (a :: (l₁' ++ x :: l₂)).getD (l₁'.length + 1) d = x
    rw [List.getD_cons_succ]
    exact ih x l₂ d

/-- Writing at the boundary of an append replaces the head of the right
part. -/
theorem set_append_length : ∀ (l₁ : List α) (x : α) (l₂ : List α) (v : α),
    (l₁ ++ x :: l₂).set l₁.length v = l₁ ++ v :: l₂ := by
  intro l₁
  induction l₁ with
  | nil => intro x l₂ v; rfl
  | cons a l₁' ih =>
    intro x l₂ v
    show (a :: (l₁' ++ x :: l₂)).set (l₁'.length + 1) v = a :: (l₁' ++ v :: l₂)
    rw [List.set_cons_succ, ih x l₂ v]

/-- Unfolding the insertion scan over a prefix extended on the right: the last
element is compared first; if it shifts the scan continues over the shorter
prefix, otherwise the key lands at the very end. -/
theorem insertScan_append_singleton (key a : α) : ∀ (pre : List α),
    (insertScan lt key (pre ++ [a])).data
      = (if lt a key then (insertScan lt key pre).data ++ [a]
          else pre ++ [a, key]) ∧
    (insertScan lt key (pre ++ [a])).ranOff
      = (if lt a key then (insertScan lt key pre).ranOff else false) := by
  intro pre
  induction pre with
  | nil => by_cases h : lt a key <;> simp [insertScan, h]
  | cons x pre' ih =>
    obtain ⟨ihd, ihr⟩ := ih
    by_cases h : lt a key <;>
      by_cases hro : (insertScan lt key pre').ranOff <;>
        by_cases hxk : lt x key <;>
          simp [List.cons_append, insertScan, ihd, ihr, h, hro, hxk]

/-- The inner shell-sort shift with gap 1, starting just right of `pre` (at a
slot whose current entry is never read), followed by the pending `temp`
write, computes exactly the insertion scan of `temp` into `pre`. -/
theorem shellShift_one_insert [Inhabited α] (temp : α) :
    ∀ (pre : List α) (hole : α) (tail : List α),
    ((shellShift lt 1 temp (pre ++ hole :: tail) pre.length).data.set
        (shellShift lt 1 temp (pre ++ hole :: tail) pre.length).j temp)
      = (insertScan lt temp pre).data ++ tail := by
  intro pre
  induction pre using List.reverseRecOn with
  | nil =>
    intro hole tail
    simp only [List.nil_append, List.length_nil]
    rw [shellShift, dif_neg (by omega)]
    simp [insertScan]
  | append_singleton pre' a ih =>
    intro hole tail
    have hlist : (pre' ++ [a]) ++ hole :: tail = pre' ++ a :: hole :: tail := by
      simp
    have hlen : (pre' ++ [a]).length = pre'.length + 1 := by simp
    have hget : (pre' ++ a :: hole :: tail).getD (pre'.length + 1 - 1) default
        = a := by
      have hs : pre'.length + 1 - 1 = pre'.length := by omega
      rw [hs]
      exact getD_append_length pre' a (hole :: tail) default
    have hseta : (pre' ++ a :: hole :: tail).set (pre'.length + 1) a
        = pre' ++ a :: a :: tail := by
      rw [← hlist, show pre'.length + 1 = (pre' ++ [a]).length from hlen.symm,
        set_append_length]
      simp
    have hsett : (pre' ++ a :: hole :: tail).set (pre'.length + 1) temp
        = pre' ++ a :: temp :: tail := by
      rw [← hlist, show pre'.length + 1 = (pre' ++ [a]).length from hlen.symm,
        set_append_length]
      simp
    have hsub : pre'.length + 1 - 1 = pre'.length := by omega
    rw [hlist, hlen, shellShift, dif_pos (by omega)]
    simp only [hget]
    by_cases hak : lt a temp
    · rw [if_pos hak]
      simp only [hseta, hsub]
      rw [ih a (a :: tail), (insertScan_append_singleton temp a pre').1,
        if_pos hak]
      simp
    · rw [if_neg hak]
      simp only []
      rw [hsett, (insertScan_append_singleton temp a pre').1, if_neg hak]
      simp

/-- The shell-sort sweep with gap 1 starting after the prefix `pre` is the
insertion-sort loop inserting the remaining elements into `pre`. -/
theorem shellSweep_one_insertion [Inhabited α] :
    ∀ (rest pre : List α),
    (shellSweep lt 1 (pre ++ rest) pre.length).data
      = (insertionLoop lt pre rest).data := by
  intro rest
  induction rest with
  | nil =>
    intro pre
    rw [shellSweep, dif_neg (by simp)]
    simp [insertionLoop]
  | cons key rest' ih =>
    intro pre
    rw [shellSweep, dif_pos (by simp)]
    simp only [getD_append_length]
    rw [shellShift_one_insert key pre key rest']
    have hlen : pre.length + 1 = (insertScan lt key pre).data.length := by
      have := (@insertScan_perm _ lt key pre).length_eq
      simp at this
      omega
    rw [hlen, ih ((insertScan lt key pre).data)]
    simp [insertionLoop]

/-- Every gap pass of shell sort with a positive gap ends in the gap-1 pass,
which is insertion sort; hence the gap loop sorts. -/
theorem shellGapLoop_sorted [Inhabited α]
    (hA : ∀ a b, lt a b = true → lt b a = false)
    (hT : ∀ a b c, lt a b = false → lt b c = false → lt a c = false) :
    ∀ (gap : Nat) (l : List α), 0 < gap →
    (shellGapLoop lt l gap).data.Pairwise (fun a c => lt a c = false) := by
  intro gap
  induction gap using Nat.strong_induction_on with
  | _ gap IH =>
    intro l hgap
    rw [shellGapLoop, dif_pos hgap]
    simp only []
    by_cases h1 : gap = 1
    · subst h1
      rw [shellGapLoop, dif_neg (by omega)]
      match l with
      | [] =>
        rw [shellSweep, dif_neg (by simp)]
        simp
      | x :: rest =>
        have hone := @shellSweep_one_insertion _ lt _ rest [x]
        simp only [List.singleton_append, List.length_singleton] at hone
        rw [hone]
        exact insertionLoop_sorted hA hT rest [x] (by simp)
    · exact IH (gap / 2) (by omega) _ (by omega)

/-- The shell-sort gap loop permutes the list. -/
theorem shellGapLoop_perm [Inhabited α] : ∀ (gap : Nat) (l : List α),
    (shellGapLoop lt l gap).data.Perm l := by
  intro gap
  induction gap using Nat.strong_induction_on with
  | _ gap IH =>
    intro l
    by_cases h : 0 < gap
    · rw [shellGapLoop, dif_pos h]
      exact (IH (gap / 2) (by omega) _).trans (shellSweep_perm gap l gap)
    · rw [shellGapLoop, dif_neg h]

end SortProofs

/-! ### Instantiation of the generic sort lemmas at the field comparison -/

/-- The out-of-order test of the source is asymmetric, for every field and
order. -/
theorem sortLt_asymm (field : SortField) (order : SortOrder) :
    ∀ a b, sortLt field order a b = true → sortLt field order b a = false := by
  intro a b
  cases order <;>
    simp only [sortLt, decide_eq_true_eq, decide_eq_false_iff_not,
      gt_iff_lt] <;>
    exact fun h => lt_asymm h

/-- The complement of the out-of-order test is transitive, for every field
and order. -/
theorem sortLt_compl_trans (field : SortField) (order : SortOrder) :
    ∀ a b c, sortLt field order a b = false → sortLt field order b c = false →
      sortLt field order a c = false := by
  intro a b c
  cases order
  · simp only [sortLt, decide_eq_false_iff_not, gt_iff_lt, not_lt]
    exact fun h1 h2 => le_trans h1 h2
  · simp only [sortLt, decide_eq_false_iff_not, not_lt]
    exact fun h1 h2 => le_trans h2 h1

/-- The complement of the out-of-order test is exactly the requested-order
comparison rule of the claims. -/
theorem sortLt_eq_false_iff (field : SortField) (order : SortOrder)
    (a b : IStudent) :
    sortLt field order a b = false ↔ ordLe field order a b := by
  cases order <;> simp [sortLt, ordLe, not_lt]

/-- Strictness of the out-of-order test across an in-order pair: when `b`
must come strictly before `a` and `x` may come after `a`, the field values of
`x` and `b` differ. -/
theorem sortLt_cross (field : SortField) (order : SortOrder) :
    ∀ a b x, sortLt field order a b = true → sortLt field order a x = false →
      getFieldValue x field ≠ getFieldValue b field := by
  intro a b x
  cases order
  · simp only [sortLt, decide_eq_true_eq, decide_eq_false_iff_not, gt_iff_lt,
      not_lt]
    intro h1 h2
    exact ne_of_gt (lt_of_lt_of_le h1 h2)
  · simp only [sortLt, decide_eq_true_eq, decide_eq_false_iff_not, not_lt]
    intro h1 h2
    exact ne_of_lt (lt_of_le_of_lt h2 h1)

/-- C1: each of the five sort functions returns a `sortedData` that is a
permutation of the input (in particular of equal length) and is monotone in
the requested order under the field comparison rule (numeric comparison for
numeric fields, ordinal comparison of the lower-cased strings otherwise). -/
theorem C1_sorts_perm_monotone (students : List IStudent) (field : SortField)
    (order : SortOrder) :
    ((bubbleSort students field order).sortedData.Perm students ∧
      (bubbleSort students field order).sortedData.length = students.length ∧
      (bubbleSort students field order).sortedData.Pairwise
        (ordLe field order)) ∧
    ((selectionSort students field order).sortedData.Perm students ∧
      (selectionSort students field order).sortedData.length
        = students.length ∧
      (selectionSort students field order).sortedData.Pairwise
        (ordLe field order)) ∧
    ((insertionSort students field order).sortedData.Perm students ∧
      (insertionSort students field order).sortedData.length
        = students.length ∧
      (insertionSort students field order).sortedData.Pairwise
        (ordLe field order)) ∧
    ((shellSort students field order).sortedData.Perm students ∧
      (shellSort students field order).sortedData.length = students.length ∧
      (shellSort students field order).sortedData.Pairwise
        (ordLe field order)) ∧
    ((mergeSort students field order).sortedData.Perm students ∧
      (mergeSort students field order).sortedData.length = students.length ∧
      (mergeSort students field order).sortedData.Pairwise
        (ordLe field order)) := by
  have hA := sortLt_asymm field order
  have hT := sortLt_compl_trans field order
  have himp : ∀ {a b : IStudent}, sortLt field order a b = false →
      ordLe field order a b :=
    fun h => (sortLt_eq_false_iff field order _ _).mp h
  refine ⟨⟨?_, ?_, ?_⟩, ⟨?_, ?_, ?_⟩, ⟨?_, ?_, ?_⟩, ⟨?_, ?_, ?_⟩,
    ⟨?_, ?_, ?_⟩⟩
  · exact bubbleLoop_perm _ _
  · exact (bubbleLoop_perm _ _).length_eq
  · exact (bubbleSort_core_sorted hA hT students).imp himp
  · exact selectionLoop_perm _ students rfl
  · exact (selectionLoop_perm _ students rfl).length_eq
  · exact (selectionLoop_sorted hA hT _ students rfl).imp himp
  · exact insertionLoop_perm students []
  · exact (insertionLoop_perm students []).length_eq
  · exact (insertionLoop_sorted hA hT students [] (by simp)).imp himp
  · exact shellGapLoop_perm _ students
  · exact (shellGapLoop_perm _ students).length_eq
  · show (shellGapLoop (sortLt field order) students
        (students.length / 2)).data.Pairwise (ordLe field order)
    by_cases hg : 0 < students.length / 2
    · exact (shellGapLoop_sorted hA hT _ students hg).imp himp
    · have h0 : students.length / 2 = 0 := by omega
      rw [h0, shellGapLoop, dif_neg (by omega)]
      have hlen1 : students.length ≤ 1 := by omega
      rcases students with _ | ⟨x, _ | ⟨y, rest⟩⟩
      · simp
      · simp
      · simp at hlen1
  · exact mergeSortRun_perm students
  · exact (mergeSortRun_perm students).length_eq
  · exact (mergeSortRun_sorted hA hT students).imp himp

/-- C2: merge sort is stable.  For every field, order and key value `v`, the
records whose field value is `v` appear in the output exactly in their input
order; since two records' sort keys compare equal precisely when their
(lower-cased) field values coincide, any two records with equal sort keys
keep their relative input order, for ascending and descending order alike. -/
theorem C2_mergeSort_stable (students : List IStudent) (field : SortField)
    (order : SortOrder) (v : FieldVal) :
    (mergeSort students field order).sortedData.filter
        (fun s => decide (getFieldValue s field = v))
      = students.filter (fun s => decide (getFieldValue s field = v)) :=
  mergeSortRun_stable (fun s => getFieldValue s field)
    (sortLt_asymm field order) (sortLt_compl_trans field order)
    (sortLt_cross field order) students v

end StudentApp
